import Mathlib

/-!
A verification development for the MCC portfolio agent. The Python
extraction and parsing code (azure-function-email-ingestion.py and
csv-parser-backfill.py) is shallow-embedded below: text is a list of
characters, the concrete regular expressions of the source are compiled by
hand into executable scanners with the same leftmost / greedy / first
alternative semantics, Python Decimal values are rationals, and datetime
values produced by the external dateutil library are kept opaque.
-/

set_option maxRecDepth 4000

namespace PortfolioAgent

/-- Text is modelled as a list of characters. -/
abbrev Text := List Char

/-- Coerce a Lean string literal to the text model. -/
def strT (s : String) : Text := s.data

/-- ASCII digit test, mirroring the regex class [0-9]. -/
def isDigitC (c : Char) : Bool := 48 ≤ c.toNat && c.toNat ≤ 57

/-- Numeric value of a digit character. -/
def digitVal (c : Char) : Nat := c.toNat - 48

/-- Whitespace test, mirroring the regex class \s for ASCII input. -/
def isSpaceC (c : Char) : Bool :=
  c.toNat = 32 || c.toNat = 9 || c.toNat = 10 || c.toNat = 13 || c.toNat = 11 || c.toNat = 12

/-- ASCII uppercase letter test. -/
def isUpperC (c : Char) : Bool := 65 ≤ c.toNat && c.toNat ≤ 90

/-- ASCII lowercase letter test. -/
def isLowerAZ (c : Char) : Bool := 97 ≤ c.toNat && c.toNat ≤ 122

/-- ASCII letter test, mirroring the regex class [A-Za-z]. -/
def isAlphaC (c : Char) : Bool := isUpperC c || isLowerAZ c

/-- Word-character test, mirroring the regex class \w for ASCII input. -/
def isWordC (c : Char) : Bool := isAlphaC c || isDigitC c || c = '_'

/-- ASCII lowercasing of one character, mirroring str.lower. -/
def toLowerC (c : Char) : Char := if isUpperC c then Char.ofNat (c.toNat + 32) else c

/-- Lowercase a whole text, mirroring str.lower. -/
def lowerT (t : Text) : Text := t.map toLowerC

/-- Does the second text start with the first one? -/
def startsWith : Text → Text → Bool
  | [], _ => true
  | _ :: _, [] => false
  | a :: n, b :: h => a = b && startsWith n h

/-- Substring containment, mirroring the Python `in` operator on str. -/
def containsT (needle : Text) : Text → Bool
  | [] => startsWith needle []
  | c :: t => startsWith needle (c :: t) || containsT needle t

/-- Digits of a text read as a natural number. -/
def digitsToNat (t : Text) : Nat := t.foldl (fun n c => 10 * n + digitVal c) 0

/-- The rational denoted by an integer digit part and a fractional digit
part (built with mkRat so that the kernel can evaluate it). -/
def ratOfDigits (ip fp : Text) : ℚ :=
  mkRat (digitsToNat ip * 10 ^ fp.length + digitsToNat fp) (10 ^ fp.length)

/-- Multiplication of a rational by a natural number, in a form the kernel
can evaluate; equal to ordinary multiplication (qMulNat_eq below). -/
def qMulNat (q : ℚ) (n : Nat) : ℚ := mkRat (q.num * n) q.den

/-- Division of two natural numbers as a rational, in a form the kernel can
evaluate; equal to ordinary division (qDivNat_eq below). -/
def qDivNat (m n : Nat) : ℚ := mkRat m n

/-- qMulNat is multiplication. -/
theorem qMulNat_eq (q : ℚ) (n : Nat) : qMulNat q n = q * n := by
  rw [qMulNat, Rat.mkRat_eq_div]
  push_cast
  conv_rhs => rw [← Rat.num_div_den q]
  ring

/-- qDivNat is division. -/
theorem qDivNat_eq (m n : Nat) : qDivNat m n = (m : ℚ) / n := by
  rw [qDivNat, Rat.mkRat_eq_div]
  push_cast
  rfl

/-- Unsigned finite decimal literal, the fragment of the Python Decimal and
float constructors exercised by this code base (digits, an optional point,
at least one digit overall; special values and exponents are outside the
model). Returns none exactly where the Python constructor raises. -/
def parseDecCore (t : Text) : Option ℚ :=
  let ip := t.takeWhile isDigitC
  let r1 := t.dropWhile isDigitC
  match r1 with
  | [] => if ip.isEmpty then none else some (ratOfDigits ip [])
  | '.' :: fr =>
      if fr.all isDigitC && !(ip.isEmpty && fr.isEmpty) then some (ratOfDigits ip fr)
      else none
  | _ => none

/-- Signed finite decimal literal. -/
def parseDec (t : Text) : Option ℚ :=
  match t with
  | '-' :: r => (parseDecCore r).map (fun q => -q)
  | '+' :: r => parseDecCore r
  | _ => parseDecCore t

/-! ### extract_amounts (azure-function-email-ingestion.py lines 86-125)

The three AMOUNT_PATTERNS are compiled by hand. Each `..At` function decides
whether the pattern matches at the start of the given suffix, returning the
length of the whole match (group 0), the first capture group, and the last
character of the whole match, exactly the data the Python code consumes. -/

/-- Take at most n leading characters satisfying p, returning them and the rest. -/
def takeUpTo : Nat → (Char → Bool) → Text → Text × Text
  | 0, _, t => ([], t)
  | _ + 1, _, [] => ([], [])
  | n + 1, p, c :: t =>
    if p c then
      let (a, r) := takeUpTo n p t
      (c :: a, r)
    else ([], c :: t)

/-- Greedy `(?:,[0-9]{3})*`: comma-separated three-digit groups. -/
def commaGroups : Text → Text × Text
  | ',' :: a :: b :: c :: t =>
    if isDigitC a && isDigitC b && isDigitC c then
      let (g, r) := commaGroups t
      (',' :: a :: b :: c :: g, r)
    else ([], ',' :: a :: b :: c :: t)
  | t => ([], t)

/-- Optional `(?:\.[0-9]{2})?`: a point followed by exactly two digits. -/
def fracTwo : Text → Text × Text
  | '.' :: a :: b :: t =>
    if isDigitC a && isDigitC b then (['.', a, b], t) else ([], '.' :: a :: b :: t)
  | t => ([], t)

/-- The comma-grouped number body `[0-9]{1,3}(?:,[0-9]{3})*(?:\.[0-9]{2})?`
shared by the first two amount patterns. -/
def numBody (t : Text) : Option (Text × Text) :=
  let (d, r0) := takeUpTo 3 isDigitC t
  if d.isEmpty then none
  else
    let (g, r1) := commaGroups r0
    let (f, r2) := fracTwo r1
    some (d ++ g ++ f, r2)

/-- One match found by a scanner: start offset, end offset, capture group,
and the last character of the whole match. -/
structure RMatch where
  start : Nat
  stop : Nat
  grp : Text
  lastC : Char
  deriving DecidableEq

/-- `\$([0-9]{1,3}(?:,[0-9]{3})*(?:\.[0-9]{2})?)` tried at one position. -/
def p1At (t : Text) : Option (Nat × Text × Char) :=
  match t with
  | '$' :: r =>
    match numBody r with
    | some (g, _) => some (g.length + 1, g, g.getLastD '$')
    | none => none
  | _ => none

/-- `\s*(?:USD|dollars?)`: the currency-word tail, with the alternatives
tried in the order the regex engine tries them. -/
def currencyTail (t : Text) : Option Text :=
  let sp := t.takeWhile isSpaceC
  let r := t.dropWhile isSpaceC
  if startsWith (strT "USD") r then some (sp ++ strT "USD")
  else if startsWith (strT "dollars") r then some (sp ++ strT "dollars")
  else if startsWith (strT "dollar") r then some (sp ++ strT "dollar")
  else none

/-- `([0-9]{1,3}(?:,[0-9]{3})*(?:\.[0-9]{2})?)\s*(?:USD|dollars?)` tried at
one position. -/
def p2At (t : Text) : Option (Nat × Text × Char) :=
  match numBody t with
  | none => none
  | some (g, r) =>
    match currencyTail r with
    | none => none
    | some c => some (g.length + c.length, g, c.getLastD ' ')

/-- The plain number `[0-9]+(?:\.[0-9]+)?` of the magnitude-suffix pattern. -/
def p3Num (t : Text) : Option (Text × Text) :=
  let d := t.takeWhile isDigitC
  let r0 := t.dropWhile isDigitC
  if d.isEmpty then none
  else
    match r0 with
    | '.' :: r1 =>
      let f := r1.takeWhile isDigitC
      if f.isEmpty then some (d, r0)
      else some (d ++ '.' :: f, r1.dropWhile isDigitC)
    | _ => some (d, r0)

/-- Is the character one of kKmMbB? -/
def isKMB (c : Char) : Bool :=
  let l := toLowerC c
  l = 'k' || l = 'm' || l = 'b'

/-- `([0-9]+(?:\.[0-9]+)?)[kKmMbB](?:\s*(?:USD|dollars?))?` tried at one
position. -/
def p3At (t : Text) : Option (Nat × Text × Char) :=
  match p3Num t with
  | none => none
  | some (g, r) =>
    match r with
    | c :: r2 =>
      if isKMB c then
        match currencyTail r2 with
        | some ct => some (g.length + 1 + ct.length, g, ct.getLastD c)
        | none => some (g.length + 1, g, c)
      else none
    | [] => none

/-- The body of re.finditer, structurally recursive on a fuel bound (the
matchers all consume at least one character, so text length plus one steps
always suffice). -/
def runMatchesF (m : Text → Option (Nat × Text × Char)) : Nat → Text → Nat → List RMatch
  | 0, _, _ => []
  | _ + 1, [], _ => []
  | fuel + 1, c :: t, i =>
    match m (c :: t) with
    | some (len, g, lc) =>
      ⟨i, i + len, g, lc⟩ :: runMatchesF m fuel (t.drop (len - 1)) (i + len)
    | none => runMatchesF m fuel t (i + 1)

/-- re.finditer: scan left to right, taking the leftmost match, then resume
after its end. -/
def runMatches (m : Text → Option (Nat × Text × Char)) (t : Text) (i : Nat) : List RMatch :=
  runMatchesF m (t.length + 1) t i

/-- The fifty-character context window around a match,
text[max(0,start-50):min(len,end+50)]. -/
def sliceCtx (t : Text) (s e : Nat) : Text :=
  (t.drop (s - 50)).take (e + 50 - (s - 50))

/-- Keywords that raise the confidence to 95. -/
def kwInvest : List Text := [strT "invested", strT "investment", strT "amount"]

/-- Keywords that lower the confidence to 85 (checked second, so they win
when both keyword sets appear in the window). -/
def kwValuation : List Text := [strT "pre-money", strT "post-money", strT "valuation"]

/-- Contextual confidence of one amount match (lines 115-121 of the source):
start at 90, 95 if an investment keyword is in the lowered window, then 85
if a valuation keyword is. -/
def amountConfidence (t : Text) (s e : Nat) : Nat :=
  let ctx := lowerT (sliceCtx t s e)
  let c1 := if kwInvest.any (fun k => containsT k ctx) then 95 else 90
  if kwValuation.any (fun k => containsT k ctx) then 85 else c1

/-- Strip the comma separators from a captured number. -/
def stripCommas (t : Text) : Text := t.filter (fun c => c ≠ ',')

/-- The k/m/b multiplier table (Python integers). -/
def kmbFactor (c : Char) : Nat :=
  if toLowerC c = 'k' then 1000 else if toLowerC c = 'm' then 1000000 else 1000000000

/-- The amount denoted by one match: the captured number with commas
stripped, times the magnitude factor when the LAST character of the whole
match is one of kKmMbB (exactly the source's test on match.group(0)[-1]). -/
def amountOf (g : Text) (lc : Char) : ℚ :=
  let base := (parseDec (stripCommas g)).getD 0
  if isKMB lc then qMulNat base (kmbFactor lc) else base

/-- PortfolioDataExtractor.extract_amounts: all matches of the three
patterns in order, each with its amount and contextual confidence. -/
def extractAmounts (t : Text) : List (ℚ × Nat) :=
  (runMatches p1At t 0 ++ runMatches p2At t 0 ++ runMatches p3At t 0).map
    (fun m => (amountOf m.grp m.lastC, amountConfidence t m.start m.stop))

/-! ### extract_dates (lines 92-96 and 127-146)

For each date type the keyword phrases are searched in order (re.IGNORECASE);
the first keyword with a match wins and its leftmost match is taken. The
external dateutil parser is kept opaque: a captured date string is wrapped in
a constructor, and the parser's failure path (which would skip to the next
match) is not modelled -- no claim below depends on an unparseable date. -/

/-- Consume a literal (stored lowercase) case-insensitively, returning the rest. -/
def ciLit : Text → Text → Option Text
  | [], t => some t
  | _ :: _, [] => none
  | a :: l, b :: r => if toLowerC b = a then ciLit l r else none

/-- Leftmost-position search: try the matcher at every suffix, mirroring
re.search. -/
def searchPos (f : Text → Option α) : Text → Option α
  | [] => f []
  | c :: t =>
    match f (c :: t) with
    | some a => some a
    | none => searchPos f t

/-- Greedy `[:\s]*`: label separators after a keyword. -/
def labelSep (t : Text) : Text := t.dropWhile (fun c => c = ':' || isSpaceC c)

/-- The date alternation from line 134: a month name, a 1-2 digit day with an
optional comma, and a 4 digit year; or three 1-2-2-4 bounded digit groups
joined by slash or dash separators. Tried at one position, returning the
captured date string. -/
def dateAlt (t : Text) : Option Text :=
  let letters := t.takeWhile isAlphaC
  if letters.isEmpty then
    let (d1, r1) := takeUpTo 2 isDigitC t
    if d1.isEmpty then none
    else
      match r1 with
      | s1 :: r2 =>
        if s1 = '/' || s1 = '-' then
          let (d2, r3) := takeUpTo 2 isDigitC r2
          if d2.isEmpty then none
          else
            match r3 with
            | s2 :: r4 =>
              if s2 = '/' || s2 = '-' then
                let (y, _) := takeUpTo 4 isDigitC r4
                if 2 ≤ y.length then some (d1 ++ s1 :: d2 ++ s2 :: y) else none
              else none
            | [] => none
        else none
      | [] => none
  else
    match t.drop letters.length with
    | ' ' :: r1 =>
      let (d1, r2) := takeUpTo 2 isDigitC r1
      if d1.isEmpty then none
      else
        let (com, r3) := match r2 with
          | ',' :: r => (([','] : Text), r)
          | _ => ([], r2)
        match r3 with
        | ' ' :: r4 =>
          let (y, _) := takeUpTo 4 isDigitC r4
          if y.length = 4 then some (letters ++ ' ' :: d1 ++ com ++ ' ' :: y) else none
        | _ => none
    | _ => none

/-- Search for one keyword followed by `[:\s]*` and a date expression. -/
def searchKwDate (kw : Text) (t : Text) : Option Text :=
  searchPos (fun s => (ciLit kw s).bind (fun r => dateAlt (labelSep r))) t

/-- First keyword of the list that has a match anywhere in the text. -/
def firstKwDate (kws : List String) (t : Text) : Option Text :=
  match kws with
  | [] => none
  | k :: rest =>
    match searchKwDate (strT k) t with
    | some d => some d
    | none => firstKwDate rest t

/-- The dictionary built by extract_dates, one optional captured date string
per date type. -/
structure DatesMap where
  closeDate : Option Text
  asOfDate : Option Text
  period : Option Text
  deriving DecidableEq

/-- PortfolioDataExtractor.extract_dates. -/
def extractDates (t : Text) : DatesMap where
  closeDate := firstKwDate ["closed", "closing date", "close date", "completed on"] t
  asOfDate := firstKwDate ["as of", "as at", "ownership as of", "cap table dated"] t
  period := firstKwDate ["for the period", "quarter ending", "month ending", "ytd through"] t

/-! ### extract_ownership (lines 148-165)

The three percentage patterns, searched with re.IGNORECASE (modelled by
lowering the text; the captured group is all digits and a point, which
lowering does not change). Alternatives and optional parts are tried in the
regex engine's order, with fallback when a longer alternative leads the rest
of the pattern to fail. -/

/-- `([0-9]+(?:\.[0-9]+)?)\s*%` then spaces: the numeric core shared by the
ownership patterns, returning the capture and the rest after the percent sign. -/
def pctNum (t : Text) : Option (Text × Text) :=
  match p3Num t with
  | none => none
  | some (g, r) =>
    match r.dropWhile isSpaceC with
    | '%' :: r2 => some (g, r2)
    | _ => none

/-- Pattern `([0-9]+(?:\.[0-9]+)?)\s*%\s*(?:ownership|equity|stake)` at one
position of the lowered text. -/
def own1At (s : Text) : Option Text :=
  match pctNum s with
  | none => none
  | some (g, r) =>
    let r2 := r.dropWhile isSpaceC
    if startsWith (strT "ownership") r2 || startsWith (strT "equity") r2
        || startsWith (strT "stake") r2 then some g else none

/-- Pattern `(?:owns?|holding?)\s*([0-9]+(?:\.[0-9]+)?)\s*%` at one position:
the four literal alternatives in engine order, each followed by the numeric
tail. -/
def own2At (s : Text) : Option Text :=
  let tail := fun (r : Text) => (pctNum (r.dropWhile isSpaceC)).map Prod.fst
  let tryWord := fun (w : String) =>
    if startsWith (strT w) s then tail (s.drop (strT w).length) else none
  match tryWord "owns" with
  | some g => some g
  | none =>
    match tryWord "own" with
    | some g => some g
    | none =>
      match tryWord "holding" with
      | some g => some g
      | none => tryWord "holdin"

/-- Pattern
`fully[\s-]diluted\s*(?:ownership|basis)?\s*(?:of\s*)?([0-9]+(?:\.[0-9]+)?)\s*%`
at one position of the lowered text. -/
def own3At (s : Text) : Option Text :=
  match ciLit (strT "fully") s with
  | none => none
  | some r =>
    match r with
    | c :: r1 =>
      if isSpaceC c || c = '-' then
        match ciLit (strT "diluted") r1 with
        | none => none
        | some r2 =>
          let r3 := r2.dropWhile isSpaceC
          let numTail := fun (x : Text) =>
            let x1 := x.dropWhile isSpaceC
            let withOf :=
              if startsWith (strT "of") x1 then
                (pctNum ((x1.drop 2).dropWhile isSpaceC)).map Prod.fst
              else none
            match withOf with
            | some g => some g
            | none => (pctNum x1).map Prod.fst
          let afterWord :=
            if startsWith (strT "ownership") r3 then numTail (r3.drop 9)
            else none
          match afterWord with
          | some g => some g
          | none =>
            match (if startsWith (strT "basis") r3 then numTail (r3.drop 5) else none) with
            | some g => some g
            | none => numTail r3
      else none
    | [] => none

/-- An ownership hit: the captured percentage and the fixed 0.85 confidence. -/
structure OwnHit where
  pct : ℚ
  confidence : ℚ
  deriving DecidableEq

/-- PortfolioDataExtractor.extract_ownership: the three patterns tried in
order, each by leftmost search over the lowered text. -/
def extractOwnership (t : Text) : Option OwnHit :=
  let lt := lowerT t
  let mk := fun (g : Text) => OwnHit.mk ((parseDec g).getD 0) (17 / 20)
  match searchPos own1At lt with
  | some g => some (mk g)
  | none =>
    match searchPos own2At lt with
    | some g => some (mk g)
    | none => (searchPos own3At lt).map mk

/-! ### extract_metrics (lines 167-195)

Seven keyword patterns searched with re.IGNORECASE; the first match of each
contributes one entry, in the table's order. A captured value ending in k/K/m/M
is fed to Python float, multiplied out and printed back; that float arithmetic
is modelled as exact rational arithmetic and its printing as the decimal
expansion with an ".0" tail on integers -- faithful on the dyadic values the
claims exercise. A value whose numeric part is empty makes float raise
ValueError, which aborts the whole extraction; this is the none result. -/

/-- Digit character of one decimal digit. -/
def digitChar (n : Nat) : Char := Char.ofNat (48 + n)

/-- Decimal digits of a natural number, structurally recursive on a fuel
bound (the number itself bounds the digit count). -/
def natDigitsF : Nat → Nat → Text
  | 0, n => [digitChar n]
  | fuel + 1, n =>
    if n < 10 then [digitChar n]
    else natDigitsF fuel (n / 10) ++ [digitChar (n % 10)]

/-- Decimal digits of a natural number. -/
def natDigits (n : Nat) : Text := natDigitsF n n

/-- Fractional decimal digits of r/d with bounded length. -/
def fracDigits : Nat → Nat → Nat → Text
  | 0, _, _ => []
  | _ + 1, 0, _ => []
  | fuel + 1, r, d => digitChar (r * 10 / d) :: fracDigits fuel (r * 10 % d) d

/-- str of a nonnegative Python float, modelled exactly (integers print with
an ".0" tail; other values print their decimal expansion, capped at
seventeen digits). -/
def pyFloatStr (q : ℚ) : Text :=
  let n := q.num.toNat
  let ip := n / q.den
  let rem := n % q.den
  if rem = 0 then natDigits ip ++ strT ".0"
  else natDigits ip ++ '.' :: fracDigits 17 rem q.den

/-- The metric value capture `([0-9,]+(?:\.[0-9]+)?[kKmM]?)` at one position. -/
def mGroupNum (t : Text) : Option Text :=
  let isDC := fun c => isDigitC c || c = ','
  let d := t.takeWhile isDC
  if d.isEmpty then none
  else
    let r0 := t.dropWhile isDC
    let (f, r1) := match r0 with
      | '.' :: r =>
        let fd := r.takeWhile isDigitC
        if fd.isEmpty then (([] : Text), r0) else ('.' :: fd, r.dropWhile isDigitC)
      | _ => ([], r0)
    let suf : Text := match r1 with
      | c :: _ => if toLowerC c = 'k' || toLowerC c = 'm' then [c] else []
      | [] => []
    some (d ++ f ++ suf)

/-- Optional `\$?`. -/
def optDollar (t : Text) : Text :=
  match t with
  | '$' :: r => r
  | _ => t

/-- `ARR[:\s]*\$?(...)` and `revenue[:\s]*\$?(...)` share this shape. -/
def moneyAfterLabel (kw : String) (s : Text) : Option Text :=
  (ciLit (strT kw) s).bind (fun r => mGroupNum (optDollar (labelSep r)))

/-- `runway[:\s]*([0-9]+)\s*months?` at one position. -/
def runwayAt (s : Text) : Option Text :=
  match ciLit (strT "runway") s with
  | none => none
  | some r =>
    let r1 := labelSep r
    let d := r1.takeWhile isDigitC
    if d.isEmpty then none
    else
      let r2 := (r1.drop d.length).dropWhile isSpaceC
      (ciLit (strT "month") r2).map (fun _ => d)

/-- `(?:headcount|employees?|team size)[:\s]*([0-9]+)` at one position. -/
def headcountAt (s : Text) : Option Text :=
  let tail := fun (r : Text) =>
    let d := (labelSep r).takeWhile isDigitC
    if d.isEmpty then none else some d
  let tryWord := fun (w : String) => (ciLit (strT w) s).bind tail
  match tryWord "headcount" with
  | some g => some g
  | none =>
    match tryWord "employees" with
    | some g => some g
    | none =>
      match tryWord "employee" with
      | some g => some g
      | none => tryWord "team size"

/-- `burn\s*(?:rate)?[:\s]*\$?(...)` and `cash\s*(?:balance)?[:\s]*\$?(...)`. -/
def moneyAfterOpt (kw opt : String) (s : Text) : Option Text :=
  match ciLit (strT kw) s with
  | none => none
  | some r =>
    let r1 := r.dropWhile isSpaceC
    let tail := fun (x : Text) => mGroupNum (optDollar (labelSep x))
    match ciLit (strT opt) r1 with
    | some r2 =>
      match tail r2 with
      | some g => some g
      | none => tail r1
    | none => tail r1

/-- `churn[:\s]*([0-9]+(?:\.[0-9]+)?)\s*%` at one position. -/
def churnAt (s : Text) : Option Text :=
  match ciLit (strT "churn") s with
  | none => none
  | some r =>
    match p3Num (labelSep r) with
    | none => none
    | some (g, r2) =>
      match r2.dropWhile isSpaceC with
      | '%' :: _ => some g
      | _ => none

/-- The metric pattern table, in the source dictionary's insertion order. -/
def metricTable : List (String × (Text → Option Text)) :=
  [("ARR", searchPos (moneyAfterLabel "arr")),
   ("revenue", searchPos (moneyAfterLabel "revenue")),
   ("runway_months", searchPos runwayAt),
   ("headcount", searchPos headcountAt),
   ("burn_rate", searchPos (moneyAfterOpt "burn" "rate")),
   ("cash", searchPos (moneyAfterOpt "cash" "balance")),
   ("churn", searchPos churnAt)]

/-- Normalisation of one captured metric value (lines 185-193): multiply out
a trailing k/m with float arithmetic, else just strip commas. none models
the ValueError float raises on an empty numeric part. -/
def metricValue (g : Text) : Option Text :=
  let lc := toLowerC (g.getLastD ' ')
  if lc = 'k' || lc = 'm' then
    (parseDec (stripCommas g.dropLast)).map
      (fun q => pyFloatStr (qMulNat q (if lc = 'k' then 1000 else 1000000)))
  else some (stripCommas g)

/-- Run the metric table left to right, collecting the matched metrics. -/
def collectMetrics : List (String × (Text → Option Text)) → Text → Option (List (String × Text))
  | [], _ => some []
  | (nm, f) :: rest, t =>
    match f t with
    | none => collectMetrics rest t
    | some g =>
      match metricValue g with
      | none => none
      | some v => (collectMetrics rest t).map (fun ms => (nm, v) :: ms)

/-- PortfolioDataExtractor.extract_metrics. -/
def extractMetrics (t : Text) : Option (List (String × Text)) :=
  collectMetrics metricTable t

/-! ### Classification, the extraction envelope, and extract_from_email
(lines 197-353)

Datetime values flowing out of the external dateutil parser and datetime.now
are kept opaque in an inductive type; isoformat serialisation is the identity
on this model. extract_from_email returns none exactly where the Python code
raises (a float ValueError inside extract_metrics). -/

/-- An opaque datetime value: now, a date parsed from captured text, the
parsed received timestamp, or one of those shifted back thirty days. -/
inductive DVal where
  | now : DVal
  | parsedText : Text → DVal
  | parsedReceived : Text → DVal
  | minus30 : DVal → DVal
  deriving DecidableEq

/-- report_period: either the quarter format string built from the Q-pattern
or the %Y-%m rendering of the period end. -/
inductive RPeriod where
  | quarterFmt : Nat → Nat → RPeriod
  | monthFmt : DVal → RPeriod
  deriving DecidableEq

/-- One cashflow fact as appended at lines 254-259. -/
structure CashflowFact where
  date : DVal
  kind : Text
  amount : ℚ
  confidence : ℚ
  deriving DecidableEq

/-- One ownership fact as appended at lines 262-266 and 349-353. -/
structure OwnershipFact where
  asOfDate : DVal
  fullyDilutedPct : ℚ
  confidence : ℚ
  deriving DecidableEq

/-- One update fact as appended at lines 315-322. -/
structure UpdateFact where
  periodStart : DVal
  periodEnd : DVal
  reportPeriod : RPeriod
  metrics : List (String × Text)
  qualitativeSummary : Text
  confidence : ℚ
  deriving DecidableEq

/-- One communication record as set by the NotebookLM branch (lines 337-343). -/
structure CommFact where
  source : Text
  occurredAt : DVal
  summary : Text
  extractedFields : List (String × Text)
  confidence : ℚ
  deriving DecidableEq

/-- The facts mapping of the envelope. The seven initial keys are the fields
up to documents; the comm field is some only when the NotebookLM branch has
added that key to the dictionary. -/
structure Facts where
  company : List (Text × Text) := []
  rounds : List Unit := []
  ownerships : List OwnershipFact := []
  cashflows : List CashflowFact := []
  updates : List UpdateFact := []
  contacts : List Unit := []
  documents : List Unit := []
  comm : Option (List CommFact) := none
  deriving DecidableEq

/-- The keys present in the facts dictionary, in insertion order. -/
def factKeys (f : Facts) : List String :=
  ["company", "rounds", "ownerships", "cashflows", "updates", "contacts", "documents"]
    ++ (if f.comm.isSome then ["comm"] else [])

/-- The source pointer of an envelope. -/
structure SourcePtr where
  sourceType : Text
  sourceId : Text
  storageUrl : Text
  deriving DecidableEq

/-- The extraction envelope built by extract_from_email. -/
structure Envelope where
  companyId : Option Text
  sourcePtr : SourcePtr
  facts : Facts
  confidenceOverall : ℚ
  spans : List Text
  anomalies : List Text
  assumptions : List Text
  deriving DecidableEq

/-- An inbound email message as read from the Graph payload. -/
structure Email where
  subject : Text := []
  body : Text := []
  fromAddr : Text := []
  msgId : Text := []
  receivedDateTime : Text := []

/-- The email categories of _classify_email. -/
inductive Category where
  | UPDATE | FINANCIALS | BOARD | NOTEBOOKLM | CAPTABLE | GENERAL
  deriving DecidableEq

/-- PortfolioDataExtractor._classify_email (lines 280-295): an ordered
if/elif chain over subject tags and body phrases, first match wins. -/
def classifyEmail (subject body : Text) : Category :=
  let s := lowerT subject
  let b := lowerT body
  if containsT (strT "[update]") s || containsT (strT "monthly update") s then .UPDATE
  else if containsT (strT "[financials]") s || containsT (strT "financial statements") b then .FINANCIALS
  else if containsT (strT "[board]") s || containsT (strT "board deck") b then .BOARD
  else if containsT (strT "[notebooklm]") s || containsT (strT "notebook lm") b then .NOTEBOOKLM
  else if containsT (strT "[captable]") s || containsT (strT "cap table") b then .CAPTABLE
  else .GENERAL

/-- The quarter pattern `Q([1-4])\s*(\d4)` of line 307 (case sensitive),
tried at one position; yields (quarter, year). -/
def quarterAt (t : Text) : Option (Nat × Nat) :=
  match t with
  | 'Q' :: c :: r =>
    if 49 ≤ c.toNat && c.toNat ≤ 52 then
      let (y, _) := takeUpTo 4 isDigitC (r.dropWhile isSpaceC)
      if y.length = 4 then some (digitVal c, digitsToNat y) else none
    else none
  | _ => none

/-- PortfolioDataExtractor._extract_update (lines 297-322), returning the
one update fact it appends; none when extract_metrics raises. -/
def extractUpdateFact (txt recv : Text) : Option UpdateFact :=
  (extractMetrics txt).map fun ms =>
    let dates := extractDates txt
    let periodEnd := match dates.period with
      | some s => DVal.parsedText s
      | none => DVal.parsedReceived recv
    let rp := match searchPos quarterAt txt with
      | some (q, y) => RPeriod.quarterFmt y q
      | none => RPeriod.monthFmt periodEnd
    ⟨DVal.minus30 periodEnd, periodEnd, rp, ms, txt.take 500, 4 / 5⟩

/-- PortfolioDataExtractor._extract_notebook_lm (lines 334-343), returning
the communication record it stores under the new comm key. -/
def extractNotebookFact (txt : Text) : Option CommFact :=
  (extractMetrics txt).map fun ms =>
    ⟨strT "notebook_lm", DVal.now, txt.take 1000, ms, 7 / 10⟩

/-- PortfolioDataExtractor._extract_cap_table (lines 345-353): the ownership
facts it appends. -/
def extractCapTableFacts (txt : Text) : List OwnershipFact :=
  match extractOwnership txt with
  | some o => [⟨DVal.now, o.pct, o.confidence⟩]
  | none => []

/-- The per-category dispatch of lines 233-243, as the facts it contributes.
FINANCIALS and BOARD are stubs in the source. -/
def dispatchCategory (cat : Category) (txt recv : Text) : Option Facts :=
  match cat with
  | .UPDATE => (extractUpdateFact txt recv).map fun u => { updates := [u] }
  | .FINANCIALS => some {}
  | .BOARD => some {}
  | .NOTEBOOKLM => (extractNotebookFact txt).map fun c => { comm := some [c] }
  | .CAPTABLE => some { ownerships := extractCapTableFacts txt }
  | .GENERAL => some {}

/-- The confidence values gathered by lines 269-275: every confidence field
of a dictionary item inside a list value of the facts mapping, in the
dictionary's iteration order (the company value is a dictionary and is
skipped; rounds, contacts and documents never carry items here). -/
def collectConfs (f : Facts) : List ℚ :=
  f.ownerships.map (·.confidence) ++ f.cashflows.map (·.confidence)
    ++ f.updates.map (·.confidence)
    ++ (match f.comm with
        | some l => l.map (·.confidence)
        | none => [])

/-- The close date used for a cashflow: dates.get with a now default. -/
def closeDateOr (d : DatesMap) : DVal :=
  match d.closeDate with
  | some s => DVal.parsedText s
  | none => DVal.now

/-- The as-of date used for an ownership fact. -/
def asOfDateOr (d : DatesMap) : DVal :=
  match d.asOfDate with
  | some s => DVal.parsedText s
  | none => DVal.now

/-- The common tail of extract_from_email (lines 245-278): append the
investment cashflows and the ownership fact to the dispatched facts and
compute the overall confidence. -/
def mkEnvelope (msg : Email) (f0 : Facts) : Envelope :=
  let fullText := msg.subject ++ '\n' :: msg.body
  let amounts := extractAmounts fullText
  let dates := extractDates fullText
  let own := extractOwnership fullText
  let cfs : List CashflowFact :=
    if containsT (strT "invested") (lowerT fullText) then
      amounts.map (fun a => ⟨closeDateOr dates, strT "Investment", a.1, qDivNat a.2 100⟩)
    else []
  let owns : List OwnershipFact :=
    match own with
    | some o => [⟨asOfDateOr dates, o.pct, o.confidence⟩]
    | none => []
  let f1 := { f0 with
    cashflows := f0.cashflows ++ cfs
    ownerships := f0.ownerships ++ owns }
  let confs := collectConfs f1
  { companyId := none
    sourcePtr := ⟨strT "email", msg.msgId, strT "graph://messages/" ++ msg.msgId⟩
    facts := f1
    confidenceOverall := if confs.isEmpty then mkRat 1 2 else confs.sum / confs.length
    spans := []
    anomalies := []
    assumptions := [strT "currency defaulted to USD"] }

/-- PortfolioDataExtractor.extract_from_email (lines 197-278). -/
def extractFromEmail (msg : Email) : Option Envelope :=
  let fullText := msg.subject ++ '\n' :: msg.body
  let cat := classifyEmail msg.subject msg.body
  (dispatchCategory cat fullText msg.receivedDateTime).map (mkEnvelope msg)

/-! ### RobustCSVParser (csv-parser-backfill.py)

The tabular path. A parsed file is a grid of cells; a cell is none where
pandas reads NaN. Company-name normalisation, the value cleaners, header
detection, column mapping and the row loop are embedded below. The
reconciliation log (an audit side channel) and the database handle are not
modelled; the company directory is a parameter. -/

/-- Keep word characters and whitespace, the effect of re.sub([^\w\s], ''). -/
def keepFilter (t : Text) : Text := t.filter (fun c => isWordC c || isSpaceC c)

/-- The body of str.split, structurally recursive on a fuel bound (each
step consumes at least one character, so text length plus one steps always
suffice). -/
def splitWSF : Nat → Text → List Text
  | 0, _ => []
  | _ + 1, [] => []
  | fuel + 1, c :: t =>
    if isSpaceC c then splitWSF fuel t
    else (c :: t.takeWhile (fun d => !isSpaceC d))
      :: splitWSF fuel (t.dropWhile (fun d => !isSpaceC d))

/-- str.split(): maximal runs of non-whitespace characters. -/
def splitWS (t : Text) : List Text := splitWSF (t.length + 1) t

/-- Single-space join of tokens, mirroring the str join on a split. -/
def join1 : List Text → Text
  | [] => []
  | [t] => t
  | t :: ts => t ++ ' ' :: join1 ts

/-- str.strip(): drop whitespace from both ends. -/
def stripEnds (t : Text) : Text :=
  ((t.dropWhile isSpaceC).reverse.dropWhile isSpaceC).reverse

/-- The legal-entity suffix alternation of line 99, lowercased, in the
regex alternation's order. -/
def entitySuffixes : List Text :=
  [strT "llc", strT "inc", strT "corp", strT "corporation", strT "ltd",
   strT "limited", strT "co", strT "company"]

/-- Word-boundary match of one suffix alternative at the head of the text:
the literal must match case-insensitively and the following character must
not be a word character. The leading boundary is checked by the caller. -/
def suffixHereLen (t : Text) : Option Nat :=
  entitySuffixes.findSome? fun sfx =>
    match ciLit sfx t with
    | some rest =>
      match rest with
      | [] => some sfx.length
      | c :: _ => if isWordC c then none else some sfx.length
    | none => none

/-- One re.sub pass deleting word-bounded entity suffixes, scanning left to
right over the original text (pw records whether the previous character of
the original text is a word character, which decides the left boundary).
Structurally recursive on a fuel bound; each step consumes at least one
character. -/
def suffixStripAux : Nat → Bool → Text → Text
  | 0, _, _ => []
  | _ + 1, _, [] => []
  | fuel + 1, pw, c :: t =>
    if pw then c :: suffixStripAux fuel (isWordC c) t
    else
      match suffixHereLen (c :: t) with
      | some n => suffixStripAux fuel true (t.drop (n - 1))
      | none => c :: suffixStripAux fuel (isWordC c) t

/-- The suffix-stripping stage (first re.sub of _normalize_company_name). -/
def suffixStrip (t : Text) : Text := suffixStripAux (t.length + 1) false t

/-- RobustCSVParser._normalize_company_name (lines 93-104): strip entity
suffixes, strip punctuation, collapse whitespace, lowercase, strip. -/
def normalizeCompanyName (t : Text) : Text :=
  stripEnds (lowerT (join1 (splitWS (keepFilter (suffixStrip t)))))

/-- The suffix-independent tail of the normalization pipeline (punctuation
filter, whitespace collapse, lowercase, strip) as one function. -/
def pipeP (w : Text) : Text :=
  stripEnds (lowerT (join1 (splitWS (keepFilter w))))

/-- A Python return value of the cell cleaners: None, a Decimal, or a
string (the last never produced by the source, which the spec contradicts). -/
inductive PyRet where
  | noneV : PyRet
  | decV : ℚ → PyRet
  | strV : Text → PyRet
  deriving DecidableEq

/-- The parenthesised-negative rule of lines 173-175. -/
def currencyParenNeg (s1 : Text) : Text :=
  match s1 with
  | '(' :: rest =>
    if rest.getLastD ' ' = ')' && !rest.isEmpty then '-' :: rest.dropLast else s1
  | _ => s1

/-- The multiplier split of lines 177-187: a trailing k/K, m/M or b/B is
removed and fixes the integer multiplier. -/
def currencyMultSplit (s2 : Text) : Nat × Text :=
  match s2.getLastD ' ' with
  | 'k' => (1000, s2.dropLast)
  | 'K' => (1000, s2.dropLast)
  | 'm' => (1000000, s2.dropLast)
  | 'M' => (1000000, s2.dropLast)
  | 'b' => (1000000000, s2.dropLast)
  | 'B' => (1000000000, s2.dropLast)
  | _ => (1, s2)

/-- The whole cleaning pipeline before the Decimal parse: strip the symbol
class, negate parentheses, split the multiplier. -/
def currencyCleaned (t : Text) : Nat × Text :=
  currencyMultSplit (currencyParenNeg (t.filter (fun c => !(c = '$' || c = ',' || isSpaceC c))))

/-- RobustCSVParser.clean_currency (lines 163-193): strip dollar signs,
commas and whitespace, parenthesised values become negative, a trailing
k/m/b multiplies, and a Decimal parse failure returns None (the source logs
and returns, it does not raise: the module-level import gap around the
decimal name is outside this model). -/
def cleanCurrency (v : Option Text) : PyRet :=
  match v with
  | none => .noneV
  | some t =>
    if t.isEmpty then .noneV
    else
      match parseDec (currencyCleaned t).2 with
      | some q => .decV (qMulNat q (currencyCleaned t).1)
      | none => .noneV

/-- The comma and percent stripping applied by clean_percentage before the
Decimal parse. -/
def pctCleaned (t : Text) : Text :=
  (stripEnds t).filter (fun c => !(c = '%' || c = ','))

/-- RobustCSVParser.clean_percentage (lines 195-212): strip percent signs
and commas, parse, and scale a value at most one by one hundred. -/
def cleanPercentage (v : Option Text) : PyRet :=
  match v with
  | none => .noneV
  | some t =>
    if t.isEmpty then .noneV
    else
      match parseDec (pctCleaned t) with
      | some p => .decV (if p ≤ 1 then qMulNat p 100 else p)
      | none => .noneV

/-- One row of portfolio.cashflow as inserted at lines 386-401. -/
structure CashflowRow where
  companyId : Text
  date : DVal
  kind : Text
  amount : ℚ
  sourceType : Text
  sourceId : Text
  extractionConfidence : ℚ
  deriving DecidableEq

/-- One row of portfolio.ownership as inserted at lines 406-425. -/
structure OwnershipRow where
  companyId : Text
  asOfDate : DVal
  fullyDilutedPct : ℚ
  sourceType : Text
  sourceId : Text
  extractionConfidence : ℚ
  deriving DecidableEq

/-- One row of portfolio.update as inserted at lines 428-448. -/
structure UpdateRow where
  companyId : Text
  periodStart : DVal
  periodEnd : DVal
  reportPeriod : RPeriod
  metrics : List (String × Text)
  qualitativeSummary : Text
  confidence : ℚ
  sourceType : Text
  sourceId : Text
  extractionConfidence : ℚ
  deriving DecidableEq

/-- The records_created counter dictionary (lines 370-378). -/
structure RecordsCreated where
  company : Nat := 0
  rounds : Nat := 0
  ownerships : Nat := 0
  cashflows : Nat := 0
  updates : Nat := 0
  contacts : Nat := 0
  documents : Nat := 0
  deriving DecidableEq

/-- One row of portfolio.ingestion_log (lines 451-465). -/
structure LogRow where
  sourceType : Text
  sourceId : Text
  companyId : Text
  recordsCreated : RecordsCreated
  confidenceOverall : ℚ
  anomalies : List Text
  assumptions : List Text
  status : Text
  deriving DecidableEq

/-- The database state touched by persist_extraction. -/
structure Store where
  cashflows : List CashflowRow := []
  ownerships : List OwnershipRow := []
  updates : List UpdateRow := []
  ingestionLog : List LogRow := []
  deriving DecidableEq

/-- The natural-key clash test of the cashflow insert: company, date and
amount coincide (wire_ref is null on both sides). -/
def cashKeyEq (r : CashflowRow) (c : Text) (d : DVal) (a : ℚ) : Bool :=
  r.companyId = c && r.date = d && r.amount = a

/-- One cashflow insert: DO NOTHING on a key clash (no row returned), else
append (a row is returned and counted). -/
def insertCashflow (st : List CashflowRow) (row : CashflowRow) : List CashflowRow × Nat :=
  if st.any (fun r => cashKeyEq r row.companyId row.date row.amount) then (st, 0)
  else (st ++ [row], 1)

/-- The natural-key clash test of the ownership upsert: company and as-of
date coincide (security_class is null on both sides). -/
def ownKeyEq (r : OwnershipRow) (c : Text) (d : DVal) : Bool :=
  r.companyId = c && r.asOfDate = d

/-- One ownership upsert: on a key clash the existing row's percentage and
confidence are overwritten, else the row is appended; RETURNING yields a
row either way, so the counter always increments. -/
def upsertOwnership (st : List OwnershipRow) (row : OwnershipRow) : List OwnershipRow × Nat :=
  if st.any (fun r => ownKeyEq r row.companyId row.asOfDate) then
    (st.map (fun r =>
      if ownKeyEq r row.companyId row.asOfDate then
        { r with fullyDilutedPct := row.fullyDilutedPct,
                 extractionConfidence := row.extractionConfidence }
      else r), 1)
  else (st ++ [row], 1)

/-- The default 0.5 applied by cf.get(confidence, 0.5); the model's facts
always carry a confidence, so this is the identity on them. -/
def persistCashflowRow (cid : Text) (sp : SourcePtr) (cf : CashflowFact) : CashflowRow :=
  ⟨cid, cf.date, cf.kind, cf.amount, sp.sourceType, sp.sourceId, cf.confidence⟩

/-- The ownership row built from one fact. -/
def persistOwnershipRow (cid : Text) (sp : SourcePtr) (o : OwnershipFact) : OwnershipRow :=
  ⟨cid, o.asOfDate, o.fullyDilutedPct, sp.sourceType, sp.sourceId, o.confidence⟩

/-- The update row built from one fact (confidence is inserted twice, as
confidence and extraction_confidence). -/
def persistUpdateRow (cid : Text) (sp : SourcePtr) (u : UpdateFact) : UpdateRow :=
  ⟨cid, u.periodStart, u.periodEnd, u.reportPeriod, u.metrics, u.qualitativeSummary,
   u.confidence, sp.sourceType, sp.sourceId, u.confidence⟩

/-- The per-row effect of one ownership upsert, the map body of the DO
UPDATE branch: overwrite percentage and confidence on a key clash, keep the
row otherwise. -/
def owApply (row : OwnershipRow) (r : OwnershipRow) : OwnershipRow :=
  if ownKeyEq r row.companyId row.asOfDate then
    { r with fullyDilutedPct := row.fullyDilutedPct,
             extractionConfidence := row.extractionConfidence }
  else r

/-- The cumulative per-row effect of running every upsert of the loop over
one row (a proof instrument for the rerun argument). -/
def owApplyAll (cid : Text) (sp : SourcePtr) (facts : List OwnershipFact)
    (r : OwnershipRow) : OwnershipRow :=
  facts.foldl (fun r o => owApply (persistOwnershipRow cid sp o) r) r

/-- The last fact of the list carrying a given as-of date: the one whose
upsert wins when several facts share a date. -/
def lastFor (facts : List OwnershipFact) (d : DVal) : Option OwnershipFact :=
  match facts with
  | [] => none
  | g :: rest =>
    match lastFor rest d with
    | some g2 => some g2
    | none => if g.asOfDate = d then some g else none

/-- The result of persist_extraction. -/
inductive PersistResult where
  | skipped : Text → PersistResult
  | success : RecordsCreated → PersistResult
  deriving DecidableEq

/-- The cashflow insert loop (lines 386-403). -/
def insertCashflowsAll (cid : Text) (sp : SourcePtr) :
    List CashflowRow → Nat → List CashflowFact → List CashflowRow × Nat
  | st, n, [] => (st, n)
  | st, n, cf :: rest =>
    let p := insertCashflow st (persistCashflowRow cid sp cf)
    insertCashflowsAll cid sp p.1 (n + p.2) rest

/-- The ownership upsert loop (lines 406-425). -/
def upsertOwnershipsAll (cid : Text) (sp : SourcePtr) :
    List OwnershipRow → Nat → List OwnershipFact → List OwnershipRow × Nat
  | st, n, [] => (st, n)
  | st, n, o :: rest =>
    let p := upsertOwnership st (persistOwnershipRow cid sp o)
    upsertOwnershipsAll cid sp p.1 (n + p.2) rest

/-- DataPersister.persist_extraction: skip without writes when company_id is
null; otherwise insert every cashflow, ownership and update fact in order,
then append one ingestion-log row carrying the final counters. -/
def persistExtraction (st : Store) (env : Envelope) : Store × PersistResult :=
  match env.companyId with
  | none => (st, .skipped (strT "no_company_id"))
  | some cid =>
    let sp := env.sourcePtr
    let pc := insertCashflowsAll cid sp st.cashflows 0 env.facts.cashflows
    let po := upsertOwnershipsAll cid sp st.ownerships 0 env.facts.ownerships
    let upds := st.updates ++ env.facts.updates.map (persistUpdateRow cid sp)
    let rc : RecordsCreated :=
      { ownerships := po.2, cashflows := pc.2, updates := env.facts.updates.length }
    let logRow : LogRow :=
      ⟨sp.sourceType, sp.sourceId, cid, rc, env.confidenceOverall,
       env.anomalies, env.assumptions, strT "success"⟩
    (⟨pc.1, po.1, upds, st.ingestionLog ++ [logRow]⟩, .success rc)

/-! ## Claim theorems -/

/-- The concrete inputs named by the claims. -/
def c1TextBurn : Text := strT "Burn rate: $450k monthly"

/-- The spelled-out magnitude input named by claim C1 and the test suite. -/
def c1TextMillion : Text := strT "valuation of 15 million dollars"

/-- C1 (code_bug evidence): on the test suite's own inputs, the first
returned amount for a dollar-prefixed suffixed figure is the bare
currency-pattern match 450, not 450000 (the suffix form only appears as the
second match), and a spelled-out magnitude like 15 million dollars matches
no pattern at all, while the suite asserts 450000 and 15000000 as the first
amounts. -/
theorem extract_amounts_divergence :
    extractAmounts c1TextBurn = [(450, 90), (450000, 90)] ∧
    extractAmounts c1TextMillion = [] := by
  constructor
  · decide
  · decide

/-- The investment-confirmation email of claim C3 (the test suite's
scenario): the amount is labelled investment, not invested, and the
percentage precedes the words fully diluted. -/
def c3Email : Email :=
  { subject := strT "Chapul Series A Closing - MCC Investment Confirmation"
    body := strT "Confirming MCC $750,000 investment in our Series A round. MCC ownership: 3.75% on a fully diluted basis."
    msgId := strT "AAMkAGI2TG95CCC="
    receivedDateTime := strT "2025-01-20T09:15:00Z" }

/-- C3 (code_bug evidence): the claimed email yields an envelope with no
cashflow and no ownership fact at all -- the cashflow gate looks for the
literal word invested, which investment does not contain, and none of the
three ownership patterns matches a percentage that precedes the phrase
fully diluted -- although the amount 750000 itself is extracted. -/
theorem investment_email_yields_no_facts :
    (extractFromEmail c3Email).map
      (fun e => (e.facts.cashflows.length, e.facts.ownerships.length)) = some (0, 0) ∧
    (extractAmounts (c3Email.subject ++ '\n' :: c3Email.body)).map Prod.fst = [750000] := by
  constructor
  · decide
  · decide

/-- The update email of claim C4 (the test suite's scenario). -/
def c4Email : Email :=
  { subject := strT "[UPDATE] BrightWheel - January 2025 Update"
    body := strT "ARR: $15.5M\nRunway: 18 months\nHeadcount: 52"
    msgId := strT "AAMkAGI2TG93AAA="
    receivedDateTime := strT "2025-01-31T10:30:00Z" }

/-- C4 (code_bug evidence): the update email yields exactly one Update fact,
but its ARR metric is the string 15500000.0 -- the k/m branch round-trips
the value through float and str, which appends a .0 tail -- while the claim
and the test suite demand the string 15500000; runway and headcount, which
skip the float branch, match the claim. -/
theorem update_email_metrics_divergence :
    (extractFromEmail c4Email).map
      (fun e => (e.facts.updates.length,
                 (e.facts.updates.head?).map (fun u => u.metrics))) =
      some (1, some [("ARR", strT "15500000.0"),
                     ("runway_months", strT "18"),
                     ("headcount", strT "52")]) ∧
    decide ((strT "15500000.0" : Text) = strT "15500000") = false := by
  constructor
  · decide
  · decide

/-- A concrete envelope with one update fact, used to refute idempotent
persistence. -/
def c2Envelope : Envelope :=
  { companyId := some (strT "chapul")
    sourcePtr := ⟨strT "email", strT "m1", strT "graph://messages/m1"⟩
    facts := { updates := [⟨DVal.now, DVal.now, RPeriod.monthFmt DVal.now,
                           [("ARR", strT "15500000.0")], strT "summary", 4 / 5⟩] }
    confidenceOverall := 4 / 5
    spans := []
    anomalies := []
    assumptions := [strT "currency defaulted to USD"] }

/-- C2 counterexample: the update insert carries no conflict clause, so
persisting the same envelope twice stores the update row twice and the
second call again reports one update created -- the stored fact set is not
the same and records_created double-counts updates. -/
theorem persist_twice_duplicates_updates :
    (persistExtraction ({} : Store) c2Envelope).1.updates.length = 1 ∧
    (persistExtraction (persistExtraction ({} : Store) c2Envelope).1 c2Envelope).1.updates.length = 2 ∧
    (persistExtraction (persistExtraction ({} : Store) c2Envelope).1 c2Envelope).2 =
      .success { updates := 1 } ∧
    decide ((persistExtraction (persistExtraction ({} : Store) c2Envelope).1 c2Envelope).1.updates.length
      = (persistExtraction ({} : Store) c2Envelope).1.updates.length) = false := by
  refine ⟨?_, ?_, ?_, ?_⟩ <;> decide

/-- C6 counterexample: normalization is not idempotent -- the input l.l.c
normalizes to llc (the suffix pass sees no word-bounded suffix before the
punctuation is stripped), and a second normalization strips llc to the empty
string. -/
theorem normalize_company_name_not_idempotent :
    normalizeCompanyName (strT "l.l.c") = strT "llc" ∧
    normalizeCompanyName (strT "llc") = [] ∧
    decide (normalizeCompanyName (normalizeCompanyName (strT "l.l.c")) =
      normalizeCompanyName (strT "l.l.c")) = false := by
  refine ⟨?_, ?_, ?_⟩ <;> decide

/-- C7 counterexample: on an unparseable value the source returns Python
None (PyRet.noneV), never the string unparseable that the claim asserts. -/
theorem clean_currency_returns_none_not_string :
    cleanCurrency (some (strT "abc")) = .noneV ∧
    decide ((PyRet.noneV : PyRet) = .strV (strT "unparseable")) = false := by
  exact ⟨by decide, by decide⟩

/-- C7 amended: clean_currency strips dollar signs, commas and whitespace,
negates parenthesised values, multiplies by the k/M/B suffix, and on a
numeric parse failure of the remainder returns None -- it never returns a
string (and, the function being total, never raises). The concrete
conjuncts exercise each cleaning rule. -/
theorem clean_currency_behaviour :
    (∀ v : Option Text, cleanCurrency v = .noneV ∨ ∃ q : ℚ, cleanCurrency v = .decV q) ∧
    (∀ t : Text, parseDec (currencyCleaned t).2 = none → cleanCurrency (some t) = .noneV) ∧
    cleanCurrency (some (strT "$1,234,567.89")) = .decV (mkRat 123456789 100) ∧
    cleanCurrency (some (strT "(500000)")) = .decV (mkRat (-500000) 1) ∧
    cleanCurrency (some (strT "750k")) = .decV 750000 ∧
    cleanCurrency (some (strT "$2.5B")) = .decV 2500000000 ∧
    cleanCurrency (some (strT " ( $1,000k ) ")) = .decV (-1000000) := by
  refine ⟨?_, ?_, by decide, by decide, by decide, by decide, by decide⟩
  · intro v
    cases v with
    | none => exact .inl rfl
    | some t =>
      simp only [cleanCurrency]
      split
      · exact .inl rfl
      · split
        · exact .inr ⟨_, rfl⟩
        · exact .inl rfl
  · intro t h
    simp only [cleanCurrency, h]
    split <;> rfl

/-- C7 witness for the failure conjunct: the unparseable input abc. -/
theorem clean_currency_behaviour_witness :
    parseDec (currencyCleaned (strT "abc")).2 = none ∧
    cleanCurrency (some (strT "abc")) = .noneV :=
  ⟨by decide, clean_currency_behaviour.2.1 (strT "abc") (by decide)⟩

/-- C9: for every cell whose cleaned text parses as a number p, the
percentage cleaner returns 100 times p when p is at most one and p itself
otherwise -- a raw decimal fraction is reinterpreted as a percentage. -/
theorem clean_percentage_scales (t : Text) (p : ℚ)
    (h : parseDec (pctCleaned t) = some p) :
    cleanPercentage (some t) = .decV (if p ≤ 1 then p * 100 else p) := by
  cases t with
  | nil =>
    have hn : parseDec (pctCleaned ([] : Text)) = none := rfl
    rw [hn] at h
    cases h
  | cons a l =>
    simp only [cleanPercentage, List.isEmpty_cons, h, qMulNat_eq]
    rfl

/-! Helper lemmas for the confidence-bound and invariant claims. -/

/-- The contextual confidence is always 85, 90 or 95. -/
theorem amountConfidence_cases (t : Text) (s e : Nat) :
    amountConfidence t s e = 85 ∨ amountConfidence t s e = 90 ∨ amountConfidence t s e = 95 := by
  unfold amountConfidence
  dsimp only
  split
  · exact .inl rfl
  · split
    · exact .inr (.inr rfl)
    · exact .inr (.inl rfl)

/-- Every extracted amount carries confidence 85, 90 or 95. -/
theorem extractAmounts_conf (t : Text) :
    ∀ a ∈ extractAmounts t, a.2 = 85 ∨ a.2 = 90 ∨ a.2 = 95 := by
  intro a ha
  unfold extractAmounts at ha
  obtain ⟨m, _, rfl⟩ := List.mem_map.mp ha
  exact amountConfidence_cases t m.start m.stop

/-- Every ownership hit carries confidence 0.85. -/
theorem extractOwnership_conf (t : Text) (o : OwnHit)
    (h : extractOwnership t = some o) : o.confidence = 17 / 20 := by
  unfold extractOwnership at h
  dsimp only at h
  rcases h1 : searchPos own1At (lowerT t) with _ | g1 <;> rw [h1] at h
  · rcases h2 : searchPos own2At (lowerT t) with _ | g2 <;> rw [h2] at h
    · rcases h3 : searchPos own3At (lowerT t) with _ | g3 <;> rw [h3] at h
      · cases h
      · cases h
        rfl
    · cases h
      rfl
  · cases h
    rfl

/-- What every dispatch branch contributes: no cashflows, ownership facts
at 0.85, update facts at 0.8, comm records at 0.7. -/
theorem dispatchCategory_spec (cat : Category) (txt recv : Text) (f0 : Facts)
    (h : dispatchCategory cat txt recv = some f0) :
    f0.cashflows = [] ∧
    (∀ o ∈ f0.ownerships, o.confidence = 17 / 20) ∧
    (∀ u ∈ f0.updates, u.confidence = 4 / 5) ∧
    (∀ l, f0.comm = some l → ∀ c ∈ l, c.confidence = 7 / 10) := by
  cases cat with
  | UPDATE =>
    simp only [dispatchCategory] at h
    obtain ⟨u, hu, rfl⟩ := Option.map_eq_some'.mp h
    obtain ⟨ms, _, rfl⟩ := Option.map_eq_some'.mp hu
    refine ⟨rfl, by simp, ?_, by simp⟩
    intro x hx
    simp only [List.mem_singleton] at hx
    subst hx
    rfl
  | FINANCIALS => cases h; exact ⟨rfl, by simp, by simp, by simp⟩
  | BOARD => cases h; exact ⟨rfl, by simp, by simp, by simp⟩
  | GENERAL => cases h; exact ⟨rfl, by simp, by simp, by simp⟩
  | NOTEBOOKLM =>
    simp only [dispatchCategory] at h
    obtain ⟨c, hc, rfl⟩ := Option.map_eq_some'.mp h
    obtain ⟨ms, _, rfl⟩ := Option.map_eq_some'.mp hc
    refine ⟨rfl, by simp, by simp, ?_⟩
    intro l hl x hx
    cases hl
    simp only [List.mem_singleton] at hx
    subst hx
    rfl
  | CAPTABLE =>
    cases h
    refine ⟨rfl, ?_, by simp, by simp⟩
    intro o ho
    simp only [extractCapTableFacts] at ho
    rcases hw : extractOwnership txt with _ | w <;> rw [hw] at ho
    · cases ho
    · simp only [List.mem_singleton] at ho
      subst ho
      exact extractOwnership_conf txt w hw

/-- The envelope built by mkEnvelope: its facts and overall confidence,
read back off the record. -/
theorem mkEnvelope_confidenceOverall (msg : Email) (f0 : Facts) :
    (mkEnvelope msg f0).confidenceOverall =
      (if (collectConfs (mkEnvelope msg f0).facts).isEmpty then mkRat 1 2
       else (collectConfs (mkEnvelope msg f0).facts).sum
            / (collectConfs (mkEnvelope msg f0).facts).length) := rfl

/-- mkEnvelope sets the assumptions to the one fixed entry. -/
theorem mkEnvelope_assumptions (msg : Email) (f0 : Facts) :
    (mkEnvelope msg f0).assumptions = [strT "currency defaulted to USD"] := rfl

/-- Membership in the collected confidences, by fact list. -/
theorem mem_collectConfs (f : Facts) (x : ℚ) :
    x ∈ collectConfs f ↔
      (∃ o ∈ f.ownerships, x = o.confidence) ∨
      (∃ c ∈ f.cashflows, x = c.confidence) ∨
      (∃ u ∈ f.updates, x = u.confidence) ∨
      (∃ l, f.comm = some l ∧ ∃ c ∈ l, x = c.confidence) := by
  rcases hl : f.comm with _ | l <;>
    simp [collectConfs, hl, List.mem_append, List.mem_map, eq_comm]

/-- Every confidence collected from a dispatched-and-extended envelope lies
between 0.7 and 0.95. -/
theorem collectConfs_bounds (msg : Email) (cat : Category) (txt recv : Text) (f0 : Facts)
    (hd : dispatchCategory cat txt recv = some f0) :
    ∀ x ∈ collectConfs (mkEnvelope msg f0).facts, 7 / 10 ≤ x ∧ x ≤ 19 / 20 := by
  obtain ⟨hcf, hown, hupd, hcomm⟩ := dispatchCategory_spec cat txt recv f0 hd
  intro x hx
  have hfacts : (mkEnvelope msg f0).facts.ownerships = f0.ownerships ++
      (match extractOwnership (msg.subject ++ '\n' :: msg.body) with
       | some o => [⟨asOfDateOr (extractDates (msg.subject ++ '\n' :: msg.body)), o.pct, o.confidence⟩]
       | none => []) := rfl
  have hfacts2 : (mkEnvelope msg f0).facts.cashflows = f0.cashflows ++
      (if containsT (strT "invested") (lowerT (msg.subject ++ '\n' :: msg.body)) then
        (extractAmounts (msg.subject ++ '\n' :: msg.body)).map
          (fun a => ⟨closeDateOr (extractDates (msg.subject ++ '\n' :: msg.body)),
                     strT "Investment", a.1, qDivNat a.2 100⟩)
       else []) := rfl
  have hfacts3 : (mkEnvelope msg f0).facts.updates = f0.updates := rfl
  have hfacts4 : (mkEnvelope msg f0).facts.comm = f0.comm := rfl
  rcases (mem_collectConfs _ x).mp hx with hc | hc | hc | hc
  · obtain ⟨o, ho, rfl⟩ := hc
    rw [hfacts, List.mem_append] at ho
    rcases ho with ho | ho
    · rw [hown o ho]
      norm_num
    · rcases hw : extractOwnership (msg.subject ++ '\n' :: msg.body) with _ | w <;> rw [hw] at ho
      · cases ho
      · simp only [List.mem_singleton] at ho
        subst ho
        rw [show (⟨asOfDateOr (extractDates (msg.subject ++ '\n' :: msg.body)), w.pct,
            w.confidence⟩ : OwnershipFact).confidence = w.confidence from rfl,
          extractOwnership_conf _ w hw]
        norm_num
  · obtain ⟨c, hc2, rfl⟩ := hc
    rw [hfacts2, List.mem_append] at hc2
    rcases hc2 with hc2 | hc2
    · rw [hcf] at hc2
      cases hc2
    · split at hc2
      · obtain ⟨a, ha, rfl⟩ := List.mem_map.mp hc2
        rcases extractAmounts_conf _ a ha with hcv | hcv | hcv <;>
          · rw [show (⟨closeDateOr (extractDates (msg.subject ++ '\n' :: msg.body)),
                strT "Investment", a.1, qDivNat a.2 100⟩ : CashflowFact).confidence =
                qDivNat a.2 100 from rfl]
            simp only [hcv, qDivNat_eq]
            norm_num
      · cases hc2
  · obtain ⟨u, hu, rfl⟩ := hc
    rw [hfacts3] at hu
    rw [hupd u hu]
    norm_num
  · obtain ⟨l, hl, c, hcl, rfl⟩ := hc
    rw [hfacts4] at hl
    rw [hcomm l hl c hcl]
    norm_num

/-- A list with all members at most b sums to at most length times b. -/
theorem list_sum_le_mul (l : List ℚ) (b : ℚ) (h : ∀ x ∈ l, x ≤ b) :
    l.sum ≤ l.length * b := by
  induction l with
  | nil => simp
  | cons y t ih =>
    have hy := h y (by simp)
    have ht := ih (fun x hx => h x (by simp [hx]))
    simp only [List.sum_cons, List.length_cons]
    push_cast
    linarith

/-- A list with all members at least a sums to at least length times a. -/
theorem mul_le_list_sum (l : List ℚ) (a : ℚ) (h : ∀ x ∈ l, a ≤ x) :
    (l.length : ℚ) * a ≤ l.sum := by
  induction l with
  | nil => simp
  | cons y t ih =>
    have hy := h y (by simp)
    have ht := ih (fun x hx => h x (by simp [hx]))
    simp only [List.sum_cons, List.length_cons]
    push_cast
    linarith

/-- A nonempty list with all members between a and b has its average
between a and b. -/
theorem list_average_bounds (l : List ℚ) (a b : ℚ) (hne : l ≠ [])
    (h : ∀ x ∈ l, a ≤ x ∧ x ≤ b) :
    a ≤ l.sum / l.length ∧ l.sum / l.length ≤ b := by
  have hlen : (0 : ℚ) < l.length := by
    have := List.length_pos.mpr hne
    exact_mod_cast this
  constructor
  · rw [le_div_iff₀ hlen]
    have := mul_le_list_sum l a (fun x hx => (h x hx).1)
    linarith
  · rw [div_le_iff₀ hlen]
    have := list_sum_le_mul l b (fun x hx => (h x hx).2)
    linarith

/-- C5: for every message whose extraction succeeds, the overall confidence
lies in the unit interval, equals the arithmetic mean of the fact-level
confidences whenever at least one fact carries one, and equals the neutral
0.5 exactly when no fact carries a confidence. -/
theorem confidence_overall_spec (msg : Email) (env : Envelope)
    (h : extractFromEmail msg = some env) :
    0 ≤ env.confidenceOverall ∧ env.confidenceOverall ≤ 1 ∧
    (collectConfs env.facts ≠ [] →
      env.confidenceOverall =
        (collectConfs env.facts).sum / (collectConfs env.facts).length) ∧
    (env.confidenceOverall = 1 / 2 ↔ collectConfs env.facts = []) := by
  simp only [extractFromEmail] at h
  obtain ⟨f0, hd, rfl⟩ := Option.map_eq_some'.mp h
  have hb := collectConfs_bounds msg _ _ _ f0 hd
  rw [mkEnvelope_confidenceOverall]
  rcases hemp : collectConfs (mkEnvelope msg f0).facts with _ | ⟨y, t⟩
  · simp only [List.isEmpty_nil, if_true]
    have h12 : (mkRat 1 2 : ℚ) = 1 / 2 := by
      rw [Rat.mkRat_eq_div]
      norm_num
    refine ⟨by rw [h12]; norm_num, by rw [h12]; norm_num, by simp, by simp [h12]⟩
  · simp only [List.isEmpty_cons, if_false, Bool.false_eq_true]
    have hne : y :: t ≠ [] := by simp
    have hbs : ∀ x ∈ y :: t, 7 / 10 ≤ x ∧ x ≤ 19 / 20 := by
      intro x hx
      exact hb x (hemp ▸ hx)
    have hav := list_average_bounds (y :: t) (7 / 10) (19 / 20) hne hbs
    refine ⟨by linarith [hav.1], by linarith [hav.2], fun _ => trivial, ?_⟩
    constructor
    · intro habs
      rw [habs] at hav
      norm_num at hav
    · intro habs
      cases habs

/-- C5 witness: an empty message yields an envelope with no confidences and
overall confidence one half. -/
theorem confidence_overall_spec_witness :
    extractFromEmail (Email.mk [] [] [] [] []) =
      some (mkEnvelope (Email.mk [] [] [] [] []) {}) ∧
    (0 ≤ (mkEnvelope (Email.mk [] [] [] [] []) {}).confidenceOverall ∧
     (mkEnvelope (Email.mk [] [] [] [] []) {}).confidenceOverall ≤ 1 ∧
     (collectConfs (mkEnvelope (Email.mk [] [] [] [] []) {}).facts ≠ [] →
       (mkEnvelope (Email.mk [] [] [] [] []) {}).confidenceOverall =
         (collectConfs (mkEnvelope (Email.mk [] [] [] [] []) {}).facts).sum /
         (collectConfs (mkEnvelope (Email.mk [] [] [] [] []) {}).facts).length) ∧
     ((mkEnvelope (Email.mk [] [] [] [] []) {}).confidenceOverall = 1 / 2 ↔
       collectConfs (mkEnvelope (Email.mk [] [] [] [] []) {}).facts = [])) :=
  ⟨rfl, confidence_overall_spec (Email.mk [] [] [] [] [])
    (mkEnvelope (Email.mk [] [] [] [] []) {}) rfl⟩

/-- C10: every envelope that extraction returns carries the fixed
currency-defaulted-to-USD assumption, and its facts mapping contains the
seven initial fact-kind keys. -/
theorem envelope_init_invariants (msg : Email) (env : Envelope)
    (h : extractFromEmail msg = some env) :
    strT "currency defaulted to USD" ∈ env.assumptions ∧
    ∀ k ∈ (["company", "rounds", "ownerships", "cashflows", "updates", "contacts",
            "documents"] : List String), k ∈ factKeys env.facts := by
  simp only [extractFromEmail] at h
  obtain ⟨f0, _, rfl⟩ := Option.map_eq_some'.mp h
  constructor
  · rw [mkEnvelope_assumptions]
    simp
  · intro k hk
    exact List.mem_append_left _ hk

/-- C10 witness: the empty message. -/
theorem envelope_init_invariants_witness :
    extractFromEmail (Email.mk [] [] [] [] []) =
      some (mkEnvelope (Email.mk [] [] [] [] []) {}) ∧
    (strT "currency defaulted to USD" ∈
        (mkEnvelope (Email.mk [] [] [] [] []) {}).assumptions ∧
     ∀ k ∈ (["company", "rounds", "ownerships", "cashflows", "updates", "contacts",
             "documents"] : List String),
       k ∈ factKeys (mkEnvelope (Email.mk [] [] [] [] []) {}).facts) :=
  ⟨rfl, envelope_init_invariants (Email.mk [] [] [] [] [])
    (mkEnvelope (Email.mk [] [] [] [] []) {}) rfl⟩

/-- Rows already stored survive every cashflow insert. -/
theorem insertCashflowsAll_mono (cid : Text) (sp : SourcePtr) (facts : List CashflowFact) :
    ∀ st n r, r ∈ st → r ∈ (insertCashflowsAll cid sp st n facts).1 := by
  induction facts with
  | nil => intro st n r hr; exact hr
  | cons cf rest ih =>
    intro st n r hr
    simp only [insertCashflowsAll]
    apply ih
    simp only [insertCashflow]
    split
    · exact hr
    · exact List.mem_append_left _ hr

/-- After the insert loop, every fact of the envelope has a row with its
natural key in the store. -/
theorem insertCashflowsAll_covers (cid : Text) (sp : SourcePtr) (facts : List CashflowFact) :
    ∀ st n, ∀ cf ∈ facts,
      ∃ r ∈ (insertCashflowsAll cid sp st n facts).1,
        cashKeyEq r cid cf.date cf.amount = true := by
  induction facts with
  | nil => intro st n cf hcf; cases hcf
  | cons g rest ih =>
    intro st n cf hcf
    rcases List.mem_cons.mp hcf with rfl | hcf
    · simp only [insertCashflowsAll]
      rcases hany : (st.any
          (fun r => cashKeyEq r (persistCashflowRow cid sp cf).companyId
            (persistCashflowRow cid sp cf).date (persistCashflowRow cid sp cf).amount)) with _ | _
      · refine ⟨persistCashflowRow cid sp cf, ?_, ?_⟩
        · apply insertCashflowsAll_mono
          simp only [insertCashflow, hany, Bool.false_eq_true, if_false]
          exact List.mem_append_right _ (by simp)
        · simp [cashKeyEq, persistCashflowRow]
      · obtain ⟨r, hr, hkey⟩ := List.any_eq_true.mp hany
        refine ⟨r, ?_, ?_⟩
        · apply insertCashflowsAll_mono
          simp only [insertCashflow, hany, if_true]
          exact hr
        · simpa [persistCashflowRow] using hkey
    · exact ih _ _ cf hcf

/-- When every fact already has a key-matching row, the insert loop is a
no-op and counts nothing. -/
theorem insertCashflowsAll_noop (cid : Text) (sp : SourcePtr) (facts : List CashflowFact) :
    ∀ st n, (∀ cf ∈ facts, ∃ r ∈ st, cashKeyEq r cid cf.date cf.amount = true) →
      insertCashflowsAll cid sp st n facts = (st, n) := by
  induction facts with
  | nil => intro st n _; rfl
  | cons g rest ih =>
    intro st n h
    obtain ⟨r, hr, hkey⟩ := h g (by simp)
    have hany : (st.any
        (fun r => cashKeyEq r (persistCashflowRow cid sp g).companyId
          (persistCashflowRow cid sp g).date (persistCashflowRow cid sp g).amount)) = true := by
      refine List.any_eq_true.mpr ⟨r, hr, ?_⟩
      simpa [persistCashflowRow] using hkey
    simp only [insertCashflowsAll, insertCashflow, hany, if_true]
    exact ih st (n + 0) (fun cf hcf => h cf (by simp [hcf]))

/-- The upsert is the key-guarded map or append, with the map body named. -/
theorem upsertOwnership_eq (st : List OwnershipRow) (row : OwnershipRow) :
    upsertOwnership st row =
      if st.any (fun r => ownKeyEq r row.companyId row.asOfDate) then
        (st.map (owApply row), 1)
      else (st ++ [row], 1) := rfl

/-- The per-row upsert effect preserves the company key field. -/
theorem owApply_companyId (row r : OwnershipRow) :
    (owApply row r).companyId = r.companyId := by
  unfold owApply
  split <;> rfl

/-- The per-row upsert effect preserves the as-of-date key field. -/
theorem owApply_asOfDate (row r : OwnershipRow) :
    (owApply row r).asOfDate = r.asOfDate := by
  unfold owApply
  split <;> rfl

/-- The natural-key test is invariant under the per-row upsert effect. -/
theorem ownKeyEq_owApply (row r : OwnershipRow) (c : Text) (d : DVal) :
    ownKeyEq (owApply row r) c d = ownKeyEq r c d := by
  unfold ownKeyEq
  rw [owApply_companyId, owApply_asOfDate]

/-- Mapping the per-row upsert effect over a store does not change which
keys are present. -/
theorem any_map_key (st : List OwnershipRow) (row : OwnershipRow) (c : Text) (d : DVal) :
    (st.map (owApply row)).any (fun r => ownKeyEq r c d)
      = st.any (fun r => ownKeyEq r c d) := by
  induction st with
  | nil => rfl
  | cons a t ih => simp only [List.map_cons, List.any_cons, ih, ownKeyEq_owApply]

/-- Unfolding the cumulative effect one upsert at a time. -/
theorem owApplyAll_cons (cid : Text) (sp : SourcePtr) (g : OwnershipFact)
    (rest : List OwnershipFact) (r : OwnershipRow) :
    owApplyAll cid sp (g :: rest) r
      = owApplyAll cid sp rest (owApply (persistOwnershipRow cid sp g) r) := by
  simp only [owApplyAll, List.foldl_cons]

/-- Unfolding the last-fact search one fact at a time. -/
theorem lastFor_cons (g : OwnershipFact) (rest : List OwnershipFact) (d : DVal) :
    lastFor (g :: rest) d
      = match lastFor rest d with
        | some g2 => some g2
        | none => if g.asOfDate = d then some g else none := rfl

/-- The cumulative upsert effect on one row: rows of other companies are
untouched, and a row of this company ends with the fields of the last fact
sharing its as-of date, or untouched when no fact shares it. -/
theorem owApplyAll_char (cid : Text) (sp : SourcePtr) :
    ∀ (facts : List OwnershipFact) (r : OwnershipRow),
      owApplyAll cid sp facts r =
        if r.companyId = cid then
          match lastFor facts r.asOfDate with
          | none => r
          | some g => { r with fullyDilutedPct := g.fullyDilutedPct,
                               extractionConfidence := g.confidence }
        else r := by
  intro facts
  induction facts with
  | nil =>
    intro r
    unfold owApplyAll
    simp only [List.foldl_nil, lastFor]
    split <;> rfl
  | cons g rest ih =>
    intro r
    by_cases hc : r.companyId = cid
    · by_cases hd : g.asOfDate = r.asOfDate
      · have hkey : ownKeyEq r (persistOwnershipRow cid sp g).companyId
            (persistOwnershipRow cid sp g).asOfDate = true := by
          simp [ownKeyEq, persistOwnershipRow, hc, hd.symm]
        have hrw : owApply (persistOwnershipRow cid sp g) r
            = { r with fullyDilutedPct := g.fullyDilutedPct,
                       extractionConfidence := g.confidence } := by
          unfold owApply
          rw [if_pos hkey]
          rfl
        have hprojc : ({ r with fullyDilutedPct := g.fullyDilutedPct, extractionConfidence := g.confidence } : OwnershipRow).companyId = r.companyId := rfl
        have hprojd : ({ r with fullyDilutedPct := g.fullyDilutedPct, extractionConfidence := g.confidence } : OwnershipRow).asOfDate = r.asOfDate := rfl
        rw [owApplyAll_cons, hrw, ih]
        rw [hprojc, hprojd, if_pos hc, if_pos hc, lastFor_cons]
        rcases hl : lastFor rest r.asOfDate with _ | g2
        · dsimp only
          rw [if_pos hd]
        · dsimp only
      · have hkey : ownKeyEq r (persistOwnershipRow cid sp g).companyId
            (persistOwnershipRow cid sp g).asOfDate = false := by
          simp only [ownKeyEq, persistOwnershipRow, Bool.and_eq_false_iff,
            decide_eq_false_iff_not]
          right
          intro h
          exact hd h.symm
        have hrw : owApply (persistOwnershipRow cid sp g) r = r := by
          unfold owApply
          rw [if_neg (by simp [hkey])]
        rw [owApplyAll_cons, hrw, ih, if_pos hc, if_pos hc, lastFor_cons]
        rcases hl : lastFor rest r.asOfDate with _ | g2
        · dsimp only
          rw [if_neg hd]
        · dsimp only
    · have hkey : ownKeyEq r (persistOwnershipRow cid sp g).companyId
          (persistOwnershipRow cid sp g).asOfDate = false := by
        simp only [ownKeyEq, persistOwnershipRow, Bool.and_eq_false_iff,
          decide_eq_false_iff_not]
        left
        exact hc
      have hrw : owApply (persistOwnershipRow cid sp g) r = r := by
        unfold owApply
        rw [if_neg (by simp [hkey])]
      rw [owApplyAll_cons, hrw, ih, if_neg hc, if_neg hc]

/-- A key present in the store stays present through the upsert loop. -/
theorem upsertOwnershipsAll_presence (cid : Text) (sp : SourcePtr) (d : DVal) :
    ∀ (facts : List OwnershipFact) (st : List OwnershipRow) (n : Nat),
      st.any (fun r => ownKeyEq r cid d) = true →
      (upsertOwnershipsAll cid sp st n facts).1.any (fun r => ownKeyEq r cid d) = true := by
  intro facts
  induction facts with
  | nil => intro st n h; exact h
  | cons g rest ih =>
    intro st n h
    simp only [upsertOwnershipsAll, upsertOwnership_eq]
    split
    · apply ih
      rw [any_map_key]
      exact h
    · apply ih
      rw [List.any_append, h]
      rfl

/-- After the loop, every fact of the envelope has a key-matching row. -/
theorem upsertOwnershipsAll_covers_keys (cid : Text) (sp : SourcePtr) :
    ∀ (facts : List OwnershipFact) (st : List OwnershipRow) (n : Nat),
      ∀ g ∈ facts,
        (upsertOwnershipsAll cid sp st n facts).1.any
          (fun r => ownKeyEq r cid g.asOfDate) = true := by
  intro facts
  induction facts with
  | nil => intro st n g hg; cases hg
  | cons f rest ih =>
    intro st n g hg
    rcases List.mem_cons.mp hg with rfl | hg
    · simp only [upsertOwnershipsAll, upsertOwnership_eq]
      split
      · rename_i hany
        apply upsertOwnershipsAll_presence
        rw [any_map_key]
        exact hany
      · apply upsertOwnershipsAll_presence
        rw [List.any_append]
        have hone : List.any [persistOwnershipRow cid sp g]
            (fun r => ownKeyEq r cid g.asOfDate) = true := by
          simp [ownKeyEq, persistOwnershipRow]
        rw [hone, Bool.or_true]
    · simp only [upsertOwnershipsAll]
      exact ih _ _ g hg

/-- On a store that already covers every fact's key, the upsert loop is the
map of the cumulative per-row effect. -/
theorem upsertOwnershipsAll_covered (cid : Text) (sp : SourcePtr) :
    ∀ (facts : List OwnershipFact) (st : List OwnershipRow) (n : Nat),
      (∀ g ∈ facts, st.any (fun r => ownKeyEq r cid g.asOfDate) = true) →
      (upsertOwnershipsAll cid sp st n facts).1 = st.map (owApplyAll cid sp facts) := by
  intro facts
  induction facts with
  | nil =>
    intro st n _
    have hid : ∀ (l : List OwnershipRow), l.map (owApplyAll cid sp []) = l := by
      intro l
      induction l with
      | nil => rfl
      | cons a t iht =>
        simp only [List.map_cons, iht]
        rfl
    exact (hid st).symm
  | cons g rest ih =>
    intro st n h
    simp only [upsertOwnershipsAll, upsertOwnership_eq]
    have hany : (st.any fun r =>
        ownKeyEq r (persistOwnershipRow cid sp g).companyId
          (persistOwnershipRow cid sp g).asOfDate) = true := h g (by simp)
    rw [if_pos hany]
    dsimp only
    have hcov : ∀ g2 ∈ rest,
        (st.map (owApply (persistOwnershipRow cid sp g))).any
          (fun r => ownKeyEq r cid g2.asOfDate) = true := by
      intro g2 hg2
      rw [any_map_key]
      exact h g2 (by simp [hg2])
    rw [ih _ _ hcov, List.map_map]
    refine List.map_congr_left fun r _ => ?_
    exact (owApplyAll_cons cid sp g rest r).symm

/-- Provenance of the rows the upsert loop leaves: a row either sat in the
initial store and no fact shares its key, or it carries the fields of the
last fact sharing its key. -/
theorem upsertOwnershipsAll_rows (cid : Text) (sp : SourcePtr) :
    ∀ (facts : List OwnershipFact) (st : List OwnershipRow) (n : Nat)
      (r : OwnershipRow), r ∈ (upsertOwnershipsAll cid sp st n facts).1 →
      (r ∈ st ∧ (r.companyId = cid → lastFor facts r.asOfDate = none)) ∨
      (r.companyId = cid ∧ ∃ g, lastFor facts r.asOfDate = some g ∧
        r.fullyDilutedPct = g.fullyDilutedPct ∧ r.extractionConfidence = g.confidence) := by
  intro facts
  induction facts with
  | nil =>
    intro st n r hr
    exact Or.inl ⟨hr, fun _ => rfl⟩
  | cons g rest ih =>
    intro st n r hr
    simp only [upsertOwnershipsAll, upsertOwnership_eq] at hr
    by_cases hany : (st.any fun r =>
        ownKeyEq r (persistOwnershipRow cid sp g).companyId
          (persistOwnershipRow cid sp g).asOfDate) = true
    · rw [if_pos hany] at hr
      dsimp only at hr
      rcases ih _ _ r hr with ⟨hin, himp⟩ | ⟨hc, g2, hl, hp, he⟩
      · obtain ⟨r0, hr0, rfl⟩ := List.mem_map.mp hin
        by_cases hk : ownKeyEq r0 cid g.asOfDate = true
        · have hkk := hk
          simp only [ownKeyEq, Bool.and_eq_true, decide_eq_true_eq] at hkk
          have hcm : (owApply (persistOwnershipRow cid sp g) r0).companyId = cid := by
            rw [owApply_companyId]
            exact hkk.1
          have hdt : (owApply (persistOwnershipRow cid sp g) r0).asOfDate = g.asOfDate := by
            rw [owApply_asOfDate]
            exact hkk.2
          have hrest := himp hcm
          rw [hdt] at hrest
          right
          refine ⟨hcm, g, ?_, ?_, ?_⟩
          · rw [hdt, lastFor_cons, hrest]
            dsimp only
            rw [if_pos rfl]
          · unfold owApply
            rw [if_pos (by simpa [ownKeyEq, persistOwnershipRow] using hk)]
            rfl
          · unfold owApply
            rw [if_pos (by simpa [ownKeyEq, persistOwnershipRow] using hk)]
            rfl
        · have hrw : owApply (persistOwnershipRow cid sp g) r0 = r0 := by
            unfold owApply
            rw [if_neg (by simpa [ownKeyEq, persistOwnershipRow] using hk)]
          rw [hrw] at himp ⊢
          left
          refine ⟨hr0, fun hcmp => ?_⟩
          have hne : ¬ g.asOfDate = r0.asOfDate := by
            intro hdd
            apply hk
            simp [ownKeyEq, hcmp, hdd.symm]
          rw [lastFor_cons, himp hcmp]
          dsimp only
          rw [if_neg hne]
      · right
        refine ⟨hc, g2, ?_, hp, he⟩
        rw [lastFor_cons, hl]
    · rw [if_neg hany] at hr
      dsimp only at hr
      rcases ih _ _ r hr with ⟨hin, himp⟩ | ⟨hc, g2, hl, hp, he⟩
      · rcases List.mem_append.mp hin with hst | hrow
        · left
          refine ⟨hst, fun hcmp => ?_⟩
          have hne : ¬ g.asOfDate = r.asOfDate := by
            intro hdd
            apply hany
            exact List.any_eq_true.mpr
              ⟨r, hst, by simp [ownKeyEq, persistOwnershipRow, hcmp, hdd.symm]⟩
          rw [lastFor_cons, himp hcmp]
          dsimp only
          rw [if_neg hne]
        · simp only [List.mem_singleton] at hrow
          subst hrow
          right
          have hdt : (persistOwnershipRow cid sp g).asOfDate = g.asOfDate := rfl
          have hrest := himp rfl
          rw [hdt] at hrest
          refine ⟨rfl, g, ?_, rfl, rfl⟩
          rw [hdt, lastFor_cons, hrest]
          dsimp only
          rw [if_pos rfl]
      · right
        refine ⟨hc, g2, ?_, hp, he⟩
        rw [lastFor_cons, hl]

/-- Every row the upsert loop leaves is a fixed point of the cumulative
per-row effect: rerunning every upsert over it changes nothing. -/
theorem upsertOwnershipsAll_fixed (cid : Text) (sp : SourcePtr)
    (facts : List OwnershipFact) (st : List OwnershipRow) (n : Nat) :
    ∀ r ∈ (upsertOwnershipsAll cid sp st n facts).1,
      owApplyAll cid sp facts r = r := by
  intro r hr
  rcases upsertOwnershipsAll_rows cid sp facts st n r hr with
    ⟨_, himp⟩ | ⟨hc, g, hl, hp, he⟩
  · rw [owApplyAll_char]
    by_cases hcmp : r.companyId = cid
    · rw [if_pos hcmp, himp hcmp]
    · rw [if_neg hcmp]
  · rw [owApplyAll_char, if_pos hc, hl]
    dsimp only
    rw [← hp, ← he]

/-- The ownership counter always advances by one per fact, because the
upsert's RETURNING clause yields a row for the update branch too. -/
theorem upsertOwnershipsAll_count (cid : Text) (sp : SourcePtr)
    (facts : List OwnershipFact) :
    ∀ st n, (upsertOwnershipsAll cid sp st n facts).2 = n + facts.length := by
  induction facts with
  | nil => intro st n; rfl
  | cons g rest ih =>
    intro st n
    simp only [upsertOwnershipsAll, upsertOwnership]
    split <;>
      · dsimp only
        rw [ih]
        simp only [List.length_cons]
        omega

/-- C2 amended: for an envelope with a company id and no update facts, a
second persist_extraction leaves the stored cashflow, ownership and update
rows exactly as the first call left them -- duplicate ownership as-of dates
included, since the rerun overwrites the same rows in the same order; the
second run reports zero cashflows and zero updates created, and re-reports
every ownership upsert (DO UPDATE RETURNING counts them every time). -/
theorem persist_rerun_without_updates (st : Store) (env : Envelope) (cid : Text)
    (hc : env.companyId = some cid) (hu : env.facts.updates = []) :
    (persistExtraction (persistExtraction st env).1 env).1.cashflows
        = (persistExtraction st env).1.cashflows ∧
    (persistExtraction (persistExtraction st env).1 env).1.ownerships
        = (persistExtraction st env).1.ownerships ∧
    (persistExtraction (persistExtraction st env).1 env).1.updates
        = (persistExtraction st env).1.updates ∧
    (persistExtraction (persistExtraction st env).1 env).2 =
      .success { ownerships := env.facts.ownerships.length, cashflows := 0, updates := 0 } := by
  have hcov := insertCashflowsAll_covers cid env.sourcePtr env.facts.cashflows st.cashflows 0
  have hnoopC := insertCashflowsAll_noop cid env.sourcePtr env.facts.cashflows
    (insertCashflowsAll cid env.sourcePtr st.cashflows 0 env.facts.cashflows).1 0 hcov
  have hcovO : ∀ g ∈ env.facts.ownerships,
      (upsertOwnershipsAll cid env.sourcePtr st.ownerships 0 env.facts.ownerships).1.any
        (fun r => ownKeyEq r cid g.asOfDate) = true :=
    fun g hg => upsertOwnershipsAll_covers_keys cid env.sourcePtr env.facts.ownerships
      st.ownerships 0 g hg
  have hmapO := upsertOwnershipsAll_covered cid env.sourcePtr env.facts.ownerships
    (upsertOwnershipsAll cid env.sourcePtr st.ownerships 0 env.facts.ownerships).1 0 hcovO
  have hfixO : (upsertOwnershipsAll cid env.sourcePtr st.ownerships 0
        env.facts.ownerships).1.map (owApplyAll cid env.sourcePtr env.facts.ownerships)
      = (upsertOwnershipsAll cid env.sourcePtr st.ownerships 0 env.facts.ownerships).1 := by
    have hfix := upsertOwnershipsAll_fixed cid env.sourcePtr env.facts.ownerships
      st.ownerships 0
    have hfix2 : ∀ r ∈ (upsertOwnershipsAll cid env.sourcePtr st.ownerships 0
        env.facts.ownerships).1,
        owApplyAll cid env.sourcePtr env.facts.ownerships r = id r :=
      fun r hr => hfix r hr
    rw [List.map_congr_left hfix2, List.map_id]
  have hcntO := upsertOwnershipsAll_count cid env.sourcePtr env.facts.ownerships
    (upsertOwnershipsAll cid env.sourcePtr st.ownerships 0 env.facts.ownerships).1 0
  have hnoopO : upsertOwnershipsAll cid env.sourcePtr
      (upsertOwnershipsAll cid env.sourcePtr st.ownerships 0 env.facts.ownerships).1 0
      env.facts.ownerships
      = ((upsertOwnershipsAll cid env.sourcePtr st.ownerships 0 env.facts.ownerships).1,
         0 + env.facts.ownerships.length) :=
    Prod.ext_iff.mpr ⟨by rw [hmapO, hfixO], by rw [hcntO]⟩
  simp only [persistExtraction, hc, hu]
  refine ⟨?_, ?_, ?_, ?_⟩
  · rw [hnoopC]
  · rw [hnoopO]
  · simp
  · rw [hnoopC, hnoopO]
    simp

/-- The envelope exercising the amended idempotence claim: one cashflow and
two ownership facts sharing one as-of date, no updates -- the duplicate-date
case the amendment must also cover. -/
def c2wEnvelope : Envelope :=
  { companyId := some (strT "acme")
    sourcePtr := ⟨strT "email", strT "m2", strT "graph://messages/m2"⟩
    facts := { cashflows := [⟨DVal.now, strT "Investment", 750000, 1⟩],
               ownerships := [⟨DVal.now, 3, 1⟩, ⟨DVal.now, 4, 1⟩] }
    confidenceOverall := 1
    spans := []
    anomalies := []
    assumptions := [strT "currency defaulted to USD"] }

/-- C2 amended witness: the concrete duplicate-date envelope above. -/
theorem persist_rerun_without_updates_witness :
    c2wEnvelope.companyId = some (strT "acme") ∧
    c2wEnvelope.facts.updates = [] ∧
    ((persistExtraction (persistExtraction ({} : Store) c2wEnvelope).1 c2wEnvelope).1.cashflows
        = (persistExtraction ({} : Store) c2wEnvelope).1.cashflows ∧
     (persistExtraction (persistExtraction ({} : Store) c2wEnvelope).1 c2wEnvelope).1.ownerships
        = (persistExtraction ({} : Store) c2wEnvelope).1.ownerships ∧
     (persistExtraction (persistExtraction ({} : Store) c2wEnvelope).1 c2wEnvelope).1.updates
        = (persistExtraction ({} : Store) c2wEnvelope).1.updates ∧
     (persistExtraction (persistExtraction ({} : Store) c2wEnvelope).1 c2wEnvelope).2 =
       .success { ownerships := c2wEnvelope.facts.ownerships.length,
                  cashflows := 0, updates := 0 }) :=
  ⟨rfl, rfl,
    persist_rerun_without_updates ({} : Store) c2wEnvelope (strT "acme") rfl rfl⟩

/-! Lemmas for the amended normalization-idempotence claim. -/

/-- Characters produced by the ASCII lowercase shift have the expected
code. -/
theorem toNat_ofNat_add32 (n : Nat) (h1 : 65 ≤ n) (h2 : n ≤ 90) :
    (Char.ofNat (n + 32)).toNat = n + 32 := by
  interval_cases n <;> decide

/-- Lowercasing is idempotent on characters. -/
theorem toLowerC_idem (c : Char) : toLowerC (toLowerC c) = toLowerC c := by
  unfold toLowerC
  by_cases h : isUpperC c = true
  · rw [if_pos h, if_neg ?_]
    simp only [isUpperC, Bool.and_eq_true, decide_eq_true_eq] at h
    have ht := toNat_ofNat_add32 c.toNat h.1 h.2
    simp only [isUpperC, ht, Bool.and_eq_true, decide_eq_true_eq, not_and]
    omega
  · rw [if_neg h, if_neg h]

/-- Lowercasing does not create or destroy whitespace. -/
theorem isSpaceC_toLowerC (c : Char) : isSpaceC (toLowerC c) = isSpaceC c := by
  unfold toLowerC
  by_cases h : isUpperC c = true
  · rw [if_pos h]
    simp only [isUpperC, Bool.and_eq_true, decide_eq_true_eq] at h
    have ht := toNat_ofNat_add32 c.toNat h.1 h.2
    have hl : isSpaceC (Char.ofNat (c.toNat + 32)) = false := by
      simp only [isSpaceC, ht, Bool.or_eq_false_iff, decide_eq_false_iff_not]
      omega
    have hr : isSpaceC c = false := by
      simp only [isSpaceC, Bool.or_eq_false_iff, decide_eq_false_iff_not]
      omega
    rw [hl, hr]
  · rw [if_neg h]

/-- Lowercasing keeps word characters word characters. -/
theorem isWordC_toLowerC (c : Char) (h : isWordC c = true) :
    isWordC (toLowerC c) = true := by
  unfold toLowerC
  by_cases hu : isUpperC c = true
  · rw [if_pos hu]
    simp only [isUpperC, Bool.and_eq_true, decide_eq_true_eq] at hu
    have ht := toNat_ofNat_add32 c.toNat hu.1 hu.2
    simp only [isWordC, isAlphaC, isUpperC, isLowerAZ, Bool.or_eq_true,
      Bool.and_eq_true, decide_eq_true_eq]
    left
    left
    right
    rw [ht]
    omega
  · rw [if_neg hu]
    exact h

/-- Lowercasing keeps keepable characters keepable. -/
theorem keep_toLowerC (c : Char) (h : (isWordC c || isSpaceC c) = true) :
    (isWordC (toLowerC c) || isSpaceC (toLowerC c)) = true := by
  rcases Bool.or_eq_true_iff.mp h with hw | hs
  · exact Bool.or_eq_true_iff.mpr (.inl (isWordC_toLowerC c hw))
  · rw [isSpaceC_toLowerC]
    exact Bool.or_eq_true_iff.mpr (.inr hs)

/-- C9 witness: 0.15 yields 15, 1 yields 100, 15 yields 15. -/
theorem clean_percentage_scales_witness :
    parseDec (pctCleaned (strT "0.15")) = some (mkRat 15 100) ∧
    cleanPercentage (some (strT "0.15")) = .decV 15 ∧
    cleanPercentage (some (strT "1")) = .decV 100 ∧
    cleanPercentage (some (strT "15")) = .decV 15 := by
  refine ⟨by decide, ?_, by decide, by decide⟩
  have h := clean_percentage_scales (strT "0.15") (mkRat 15 100) (by decide)
  rw [h, if_pos (by decide)]
  have : (mkRat 15 100 : ℚ) * 100 = 15 := by
    rw [Rat.mkRat_eq_div]
    norm_num
  rw [this]

/-! Lemmas for the amended normalization-idempotence theorem: the
punctuation, whitespace-collapse, lowercase and strip stages form an
idempotent pipeline. -/

/-- join1 on a two-or-more token list unfolds to an append. -/
theorem join1_cons_cons (t t2 : Text) (ts : List Text) :
    join1 (t :: t2 :: ts) = t ++ ' ' :: join1 (t2 :: ts) := rfl

/-- join1 on a singleton is the token itself. -/
theorem join1_one (t : Text) : join1 [t] = t := rfl

/-- Taking while a predicate that holds everywhere keeps the whole list. -/
theorem takeWhile_all {A : Type} (p : A → Bool) (l : List A)
    (h : ∀ x ∈ l, p x = true) : l.takeWhile p = l := by
  induction l with
  | nil => rfl
  | cons a t ih =>
    rw [List.takeWhile_cons, if_pos (h a (by simp)), ih fun x hx => h x (by simp [hx])]

/-- Dropping while a predicate that holds everywhere empties the list. -/
theorem dropWhile_all {A : Type} (p : A → Bool) (l : List A)
    (h : ∀ x ∈ l, p x = true) : l.dropWhile p = [] := by
  induction l with
  | nil => rfl
  | cons a t ih =>
    rw [List.dropWhile_cons, if_pos (h a (by simp))]
    exact ih fun x hx => h x (by simp [hx])

/-- takeWhile stops exactly at a separator failing the predicate. -/
theorem takeWhile_append_sep {A : Type} (p : A → Bool) (l1 l2 : List A) (a : A)
    (h1 : ∀ x ∈ l1, p x = true) (ha : p a = false) :
    (l1 ++ a :: l2).takeWhile p = l1 := by
  induction l1 with
  | nil => simp [List.takeWhile_cons, ha]
  | cons b t ih =>
    rw [List.cons_append, List.takeWhile_cons, if_pos (h1 b (by simp))]
    exact congrArg (List.cons b) (ih fun x hx => h1 x (by simp [hx]))

/-- dropWhile lands exactly on a separator failing the predicate. -/
theorem dropWhile_append_sep {A : Type} (p : A → Bool) (l1 l2 : List A) (a : A)
    (h1 : ∀ x ∈ l1, p x = true) (ha : p a = false) :
    (l1 ++ a :: l2).dropWhile p = a :: l2 := by
  induction l1 with
  | nil => simp [List.dropWhile_cons, ha]
  | cons b t ih =>
    rw [List.cons_append, List.dropWhile_cons, if_pos (h1 b (by simp))]
    exact ih fun x hx => h1 x (by simp [hx])

/-- Tokens produced by the split are nonempty, whitespace-free, and drawn
from the input text. -/
theorem splitWSF_tokens (fuel : Nat) (t : Text) :
    ∀ tok ∈ splitWSF fuel t, tok ≠ [] ∧ ∀ c ∈ tok, isSpaceC c = false ∧ c ∈ t := by
  induction fuel generalizing t with
  | zero => intro tok htok; simp [splitWSF] at htok
  | succ f ih =>
    intro tok htok
    match t with
    | [] => simp [splitWSF] at htok
    | c :: r =>
      simp only [splitWSF] at htok
      cases hc : isSpaceC c with
      | true =>
        rw [if_pos hc] at htok
        obtain ⟨hne, hmem⟩ := ih r tok htok
        exact ⟨hne, fun d hd => ⟨(hmem d hd).1, List.mem_cons_of_mem c (hmem d hd).2⟩⟩
      | false =>
        rw [if_neg (by simp [hc])] at htok
        rcases List.mem_cons.mp htok with h1 | h2
        · subst h1
          refine ⟨by simp, ?_⟩
          intro d hd
          rcases List.mem_cons.mp hd with h3 | h4
          · subst h3
            exact ⟨hc, List.mem_cons_self _ _⟩
          · refine ⟨?_, List.mem_cons_of_mem c ((List.takeWhile_sublist _).mem h4)⟩
            have := List.mem_takeWhile_imp h4
            simpa using this
        · obtain ⟨hne, hmem⟩ := ih _ tok h2
          exact ⟨hne, fun d hd => ⟨(hmem d hd).1,
            List.mem_cons_of_mem c ((List.dropWhile_sublist _).mem (hmem d hd).2)⟩⟩

/-- join1 of a list headed by a nonempty token is nonempty. -/
theorem join1_ne_nil (t : Text) (ts : List Text) (h : t ≠ []) :
    join1 (t :: ts) ≠ [] := by
  cases ts with
  | nil => rw [join1_one]; exact h
  | cons t2 ts2 =>
    rw [join1_cons_cons]
    simp [List.append_eq_nil]

/-- Splitting undoes joining on nonempty whitespace-free tokens. -/
theorem splitWSF_join1 (ts : List Text)
    (h : ∀ t ∈ ts, t ≠ [] ∧ ∀ c ∈ t, isSpaceC c = false) :
    ∀ fuel, (join1 ts).length < fuel → splitWSF fuel (join1 ts) = ts := by
  induction ts with
  | nil =>
    intro fuel hf
    obtain ⟨f, rfl⟩ : ∃ f, fuel = f + 1 := ⟨fuel - 1, by omega⟩
    simp [join1, splitWSF]
  | cons t ts ih =>
    obtain ⟨hne, hsp⟩ := h t (by simp)
    obtain ⟨c, r, rfl⟩ : ∃ c r, t = c :: r := by
      cases t with
      | nil => exact absurd rfl hne
      | cons c r => exact ⟨c, r, rfl⟩
    have hc : isSpaceC c = false := hsp c (by simp)
    have hr : ∀ x ∈ r, (!isSpaceC x) = true := fun x hx => by
      simp [hsp x (by simp [hx])]
    cases ts with
    | nil =>
      intro fuel hf
      rw [join1_one] at hf ⊢
      obtain ⟨f, rfl⟩ : ∃ f, fuel = f + 1 := ⟨fuel - 1, by omega⟩
      simp only [splitWSF]
      rw [if_neg (by simp [hc])]
      rw [takeWhile_all _ r hr, dropWhile_all _ r hr]
      obtain ⟨f2, rfl⟩ : ∃ f2, f = f2 + 1 := by
        refine ⟨f - 1, ?_⟩
        simp only [List.length_cons] at hf
        omega
      simp [splitWSF]
    | cons t2 ts2 =>
      intro fuel hf
      rw [join1_cons_cons, List.cons_append] at hf ⊢
      obtain ⟨f, rfl⟩ : ∃ f, fuel = f + 1 := ⟨fuel - 1, by omega⟩
      simp only [splitWSF]
      rw [if_neg (by simp [hc])]
      rw [takeWhile_append_sep _ r _ ' ' hr (by decide),
          dropWhile_append_sep _ r _ ' ' hr (by decide)]
      have hlen : (join1 (t2 :: ts2)).length + 2 ≤ f := by
        simp only [List.length_cons, List.length_append] at hf
        omega
      obtain ⟨f2, rfl⟩ : ∃ f2, f = f2 + 1 := ⟨f - 1, by omega⟩
      simp only [splitWSF]
      rw [if_pos (by decide)]
      exact congrArg (List.cons (c :: r))
        (ih (fun u hu => h u (by simp [hu])) f2 (by omega))

/-- Splitting undoes joining, at the standard fuel. -/
theorem splitWS_join1 (ts : List Text)
    (h : ∀ t ∈ ts, t ≠ [] ∧ ∀ c ∈ t, isSpaceC c = false) :
    splitWS (join1 ts) = ts :=
  splitWSF_join1 ts h _ (Nat.lt_succ_self _)

/-- Lowercasing distributes over the single-space join. -/
theorem lowerT_join1 (ts : List Text) :
    lowerT (join1 ts) = join1 (ts.map lowerT) := by
  induction ts with
  | nil => rfl
  | cons t ts ih =>
    cases ts with
    | nil => rfl
    | cons t2 ts2 =>
      rw [join1_cons_cons, List.map_cons, List.map_cons, join1_cons_cons]
      rw [show (lowerT t2 :: List.map lowerT ts2) = List.map lowerT (t2 :: ts2) from rfl]
      rw [← ih]
      simp [lowerT, show toLowerC ' ' = ' ' from by decide]

/-- A joined token list is empty or ends in a non-whitespace character. -/
theorem join1_concat (ts : List Text)
    (h : ∀ t ∈ ts, t ≠ [] ∧ ∀ c ∈ t, isSpaceC c = false) :
    join1 ts = [] ∨ ∃ pre a, join1 ts = pre ++ [a] ∧ isSpaceC a = false := by
  induction ts with
  | nil => exact Or.inl rfl
  | cons t ts ih =>
    obtain ⟨hne, hsp⟩ := h t (by simp)
    cases ts with
    | nil =>
      right
      rcases List.eq_nil_or_concat t with h0 | ⟨L, b, hL⟩
      · exact absurd h0 hne
      · refine ⟨L, b, ?_, ?_⟩
        · rw [join1_one]
          simpa [List.concat_eq_append] using hL
        · exact hsp b (by simp [hL, List.concat_eq_append])
    | cons t2 ts2 =>
      rcases ih (fun u hu => h u (by simp [hu])) with h0 | ⟨pre, a, hpre, ha⟩
      · exact absurd h0 (join1_ne_nil t2 ts2 (h t2 (by simp)).1)
      · right
        refine ⟨t ++ ' ' :: pre, a, ?_, ha⟩
        rw [join1_cons_cons, hpre]
        simp

/-- Strip is the identity on a join of nonempty whitespace-free tokens. -/
theorem stripEnds_join1 (ts : List Text)
    (h : ∀ t ∈ ts, t ≠ [] ∧ ∀ c ∈ t, isSpaceC c = false) :
    stripEnds (join1 ts) = join1 ts := by
  have hfront : (join1 ts).dropWhile isSpaceC = join1 ts := by
    cases ts with
    | nil => rfl
    | cons t ts2 =>
      obtain ⟨hne, hsp⟩ := h t (by simp)
      obtain ⟨c, r, rfl⟩ : ∃ c r, t = c :: r := by
        cases t with
        | nil => exact absurd rfl hne
        | cons c r => exact ⟨c, r, rfl⟩
      have hc : isSpaceC c = false := hsp c (by simp)
      cases ts2 with
      | nil => rw [join1_one, List.dropWhile_cons, if_neg (by simp [hc])]
      | cons t2 ts3 =>
        rw [join1_cons_cons, List.cons_append, List.dropWhile_cons,
          if_neg (by simp [hc])]
  have hback : (join1 ts).reverse.dropWhile isSpaceC = (join1 ts).reverse := by
    rcases join1_concat ts h with h0 | ⟨pre, a, hpre, ha⟩
    · rw [h0]; rfl
    · rw [hpre, List.reverse_append]
      simp only [List.reverse_singleton, List.singleton_append]
      rw [List.dropWhile_cons, if_neg (by simp [ha])]
  unfold stripEnds
  rw [hfront, hback, List.reverse_reverse]

/-- Every character of a join is a separator space or a token character. -/
theorem join1_mem (ts : List Text) (c : Char) (hc : c ∈ join1 ts) :
    c = ' ' ∨ ∃ t ∈ ts, c ∈ t := by
  induction ts with
  | nil => simp [join1] at hc
  | cons t ts ih =>
    cases ts with
    | nil =>
      rw [join1_one] at hc
      exact Or.inr ⟨t, by simp, hc⟩
    | cons t2 ts2 =>
      rw [join1_cons_cons] at hc
      rcases List.mem_append.mp hc with h1 | h2
      · exact Or.inr ⟨t, by simp, h1⟩
      · rcases List.mem_cons.mp h2 with h3 | h4
        · exact Or.inl h3
        · rcases ih h4 with h5 | ⟨u, hu, hcu⟩
          · exact Or.inl h5
          · exact Or.inr ⟨u, by simp [hu], hcu⟩

/-- The punctuation filter is the identity on a join of keepable tokens. -/
theorem keepFilter_join1 (ts : List Text)
    (h : ∀ t ∈ ts, ∀ c ∈ t, (isWordC c || isSpaceC c) = true) :
    keepFilter (join1 ts) = join1 ts := by
  unfold keepFilter
  rw [List.filter_eq_self]
  intro c hc
  rcases join1_mem ts c hc with h1 | ⟨t, ht, hct⟩
  · subst h1; decide
  · exact h t ht c hct

/-- Lowercasing a text twice equals lowercasing it once. -/
theorem lowerT_lowerT (t : Text) : lowerT (lowerT t) = lowerT t := by
  simp only [lowerT, List.map_map]
  exact List.map_congr_left fun c _ => by
    simp only [Function.comp_apply]
    exact toLowerC_idem c

/-- The suffix-independent normalization tail is idempotent. -/
theorem pipeP_idem (w : Text) : pipeP (pipeP w) = pipeP w := by
  set ts := splitWS (keepFilter w) with hts
  have htok : ∀ tok ∈ ts, tok ≠ [] ∧ ∀ c ∈ tok, isSpaceC c = false ∧ c ∈ keepFilter w :=
    splitWSF_tokens _ _
  have hA : ∀ tok ∈ ts, tok ≠ [] ∧ ∀ c ∈ tok, isSpaceC c = false :=
    fun tok h => ⟨(htok tok h).1, fun c hc => ((htok tok h).2 c hc).1⟩
  have hkeep : ∀ tok ∈ ts, ∀ c ∈ tok, (isWordC c || isSpaceC c) = true := by
    intro tok h c hc
    have hm := ((htok tok h).2 c hc).2
    simp only [keepFilter, List.mem_filter] at hm
    exact hm.2
  have husA : ∀ u ∈ ts.map lowerT, u ≠ [] ∧ ∀ c ∈ u, isSpaceC c = false := by
    intro u hu
    obtain ⟨tok, htokmem, rfl⟩ := List.mem_map.mp hu
    obtain ⟨h1, h2⟩ := hA tok htokmem
    constructor
    · cases tok with
      | nil => exact absurd rfl h1
      | cons a r => simp [lowerT]
    · intro c hc
      obtain ⟨d, hd, rfl⟩ := List.mem_map.mp hc
      rw [isSpaceC_toLowerC]
      exact h2 d hd
  have huskeep : ∀ u ∈ ts.map lowerT, ∀ c ∈ u, (isWordC c || isSpaceC c) = true := by
    intro u hu c hc
    obtain ⟨tok, htokmem, rfl⟩ := List.mem_map.mp hu
    obtain ⟨d, hd, rfl⟩ := List.mem_map.mp hc
    exact keep_toLowerC d (hkeep tok htokmem d hd)
  have hmm : (ts.map lowerT).map lowerT = ts.map lowerT := by
    rw [List.map_map]
    exact List.map_congr_left fun tok _ => by
      simp only [Function.comp_apply]
      exact lowerT_lowerT tok
  have hv : pipeP w = join1 (ts.map lowerT) := by
    show stripEnds (lowerT (join1 (splitWS (keepFilter w)))) = _
    rw [← hts, lowerT_join1, stripEnds_join1 _ husA]
  rw [hv]
  show stripEnds (lowerT (join1 (splitWS (keepFilter (join1 (ts.map lowerT)))))) = _
  rw [keepFilter_join1 _ huskeep, splitWS_join1 _ husA, lowerT_join1, hmm]
  exact stripEnds_join1 _ husA

/-- C6 (amended): company-name normalization is idempotent on every input
whose normalized form contains no further strippable legal-entity suffix;
the punctuation-stripping, whitespace-collapsing, lowercasing and stripping
stages are idempotent outright, so a second pass changes nothing. -/
theorem normalize_idem_of_suffix_stable (l : Text)
    (h : suffixStrip (normalizeCompanyName l) = normalizeCompanyName l) :
    normalizeCompanyName (normalizeCompanyName l) = normalizeCompanyName l := by
  have h1 : ∀ t : Text, normalizeCompanyName t = pipeP (suffixStrip t) := fun _ => rfl
  calc normalizeCompanyName (normalizeCompanyName l)
      = pipeP (suffixStrip (normalizeCompanyName l)) := h1 _
    _ = pipeP (normalizeCompanyName l) := by rw [h]
    _ = pipeP (pipeP (suffixStrip l)) := by rw [h1]
    _ = pipeP (suffixStrip l) := pipeP_idem _
    _ = normalizeCompanyName l := (h1 l).symm

/-- C6 amended-theorem witness: the input Acme Inc normalizes to a
suffix-stable form, and a second normalization pass leaves it unchanged. -/
theorem normalize_idem_of_suffix_stable_witness :
    suffixStrip (normalizeCompanyName (strT "Acme Inc"))
        = normalizeCompanyName (strT "Acme Inc") ∧
    normalizeCompanyName (normalizeCompanyName (strT "Acme Inc"))
        = normalizeCompanyName (strT "Acme Inc") :=
  ⟨by decide, normalize_idem_of_suffix_stable (strT "Acme Inc") (by decide)⟩


end PortfolioAgent
